import Mathlib

/-!
Verification development for the storage-engine core of the repository:
the LRU-K replacer, the extendible hash table, the buffer pool manager and
the B+ tree index.  Each component is shallowly embedded as executable Lean
definitions translated from the corresponding C++ source file; theorems at
the end of the file settle the specification claims against those
definitions.  Machine integers are modelled as Nat or Int (page ids use Int
with -1 standing for INVALID_PAGE_ID); code paths that abort on a fatal
assertion are modelled with Option, where none marks the assertion firing.
-/

set_option autoImplicit false

namespace StorageCore

/-! ### Association-list helpers

The C++ code stores per-key state in std::unordered_map containers (the
replacer node store, the buffer-pool page table, the disk contents, the
page store of the B+ tree model).  These maps are embedded as association
lists with unique keys; lookupA finds the first entry with the given key,
insertA replaces the first matching entry or appends, eraseA drops the
first matching entry. -/

def lookupA {κ α : Type} [DecidableEq κ] : List (κ × α) → κ → Option α
  | [], _ => none
  | (k, v) :: rest, key => if k = key then some v else lookupA rest key

def insertA {κ α : Type} [DecidableEq κ] : List (κ × α) → κ → α → List (κ × α)
  | [], key, val => [(key, val)]
  | (k, v) :: rest, key, val =>
    if k = key then (key, val) :: rest else (k, v) :: insertA rest key val

def eraseA {κ α : Type} [DecidableEq κ] : List (κ × α) → κ → List (κ × α)
  | [], _ => []
  | (k, v) :: rest, key => if k = key then rest else (k, v) :: eraseA rest key

theorem lookupA_insertA_self {κ α : Type} [DecidableEq κ]
    (l : List (κ × α)) (k : κ) (v : α) : lookupA (insertA l k v) k = some v := by
  induction l with
  | nil => simp [insertA, lookupA]
  | cons hd tl ih =>
    obtain ⟨k1, v1⟩ := hd
    by_cases h : k1 = k <;> simp [insertA, lookupA, h, ih]

theorem lookupA_insertA_ne {κ α : Type} [DecidableEq κ]
    (l : List (κ × α)) (k k2 : κ) (v : α) (h : k2 ≠ k) :
    lookupA (insertA l k v) k2 = lookupA l k2 := by
  have hne : ¬ k = k2 := fun hh => h hh.symm
  induction l with
  | nil =>
    simp only [insertA, lookupA, if_neg hne]
  | cons hd tl ih =>
    obtain ⟨k1, v1⟩ := hd
    by_cases h1 : k1 = k
    · have h3 : ¬ k1 = k2 := fun hh => hne (h1 ▸ hh)
      simp only [insertA, if_pos h1, lookupA, if_neg hne, if_neg h3]
    · by_cases h2 : k1 = k2
      · simp only [insertA, if_neg h1, lookupA, if_pos h2]
      · simp only [insertA, if_neg h1, lookupA, if_neg h2, ih]

theorem lookupA_eraseA_ne {κ α : Type} [DecidableEq κ]
    (l : List (κ × α)) (k k2 : κ) (h : k2 ≠ k) :
    lookupA (eraseA l k) k2 = lookupA l k2 := by
  induction l with
  | nil => simp [eraseA]
  | cons hd tl ih =>
    obtain ⟨k1, v1⟩ := hd
    by_cases h1 : k1 = k
    · have h3 : ¬ k1 = k2 := fun hh => h ((h1 ▸ hh : k = k2)).symm
      simp only [eraseA, if_pos h1, lookupA, if_neg h3]
    · by_cases h2 : k1 = k2
      · simp only [eraseA, if_neg h1, lookupA, if_pos h2]
      · simp only [eraseA, if_neg h1, lookupA, if_neg h2, ih]

/-- Keys of an association list. -/
def keysA {κ α : Type} : List (κ × α) → List κ := List.map Prod.fst

theorem lookupA_eraseA_self {κ α : Type} [DecidableEq κ]
    (l : List (κ × α)) (k : κ) (hnd : (keysA l).Nodup) :
    lookupA (eraseA l k) k = none := by
  induction l with
  | nil => simp [eraseA, lookupA]
  | cons hd tl ih =>
    obtain ⟨k1, v1⟩ := hd
    simp only [keysA, List.map_cons, List.nodup_cons] at hnd
    by_cases h1 : k1 = k
    · subst h1
      simp only [eraseA, if_pos rfl]
      -- k1 is not a key of tl, so lookup fails
      clear ih
      induction tl with
      | nil => simp [lookupA]
      | cons hd2 tl2 ih2 =>
        obtain ⟨k2, v2⟩ := hd2
        simp only [keysA, List.map_cons, List.mem_cons] at hnd
        have hk2 : k2 ≠ k1 := fun h => hnd.1 (Or.inl h.symm)
        simp only [lookupA, if_neg hk2]
        exact ih2 ⟨fun hm => hnd.1 (Or.inr hm), hnd.2.of_cons⟩
    · simp only [eraseA, if_neg h1, lookupA, if_neg h1]
      exact ih hnd.2

theorem lookupA_none_not_mem_keys {κ α : Type} [DecidableEq κ]
    (l : List (κ × α)) (k : κ) (h : lookupA l k = none) : k ∉ keysA l := by
  induction l with
  | nil => simp [keysA]
  | cons hd tl ih =>
    obtain ⟨k1, v1⟩ := hd
    by_cases h1 : k1 = k
    · simp [lookupA, h1] at h
    · simp only [lookupA, if_neg h1] at h
      simp only [keysA, List.map_cons, List.mem_cons]
      rintro (rfl | hm)
      · exact h1 rfl
      · exact ih h hm

theorem keysA_insertA_of_none {κ α : Type} [DecidableEq κ]
    (l : List (κ × α)) (k : κ) (v : α) (h : lookupA l k = none) :
    keysA (insertA l k v) = keysA l ++ [k] := by
  induction l with
  | nil => simp [insertA, keysA]
  | cons hd tl ih =>
    obtain ⟨k1, v1⟩ := hd
    by_cases h1 : k1 = k
    · simp [lookupA, h1] at h
    · simp only [lookupA, if_neg h1] at h
      have := ih h
      simp only [keysA] at this
      simp [insertA, keysA, h1, this]

theorem keysA_eraseA_sublist {κ α : Type} [DecidableEq κ]
    (l : List (κ × α)) (k : κ) : (keysA (eraseA l k)).Sublist (keysA l) := by
  induction l with
  | nil => simp [eraseA]
  | cons hd tl ih =>
    obtain ⟨k1, v1⟩ := hd
    by_cases h1 : k1 = k
    · simp only [eraseA, if_pos h1, keysA, List.map_cons]
      exact List.sublist_cons_of_sublist k1 (List.Sublist.refl _)
    · simp only [eraseA, if_neg h1, keysA, List.map_cons]
      exact ih.cons₂ k1

theorem keysA_eraseA_nodup {κ α : Type} [DecidableEq κ]
    (l : List (κ × α)) (k : κ) (h : (keysA l).Nodup) :
    (keysA (eraseA l k)).Nodup :=
  (keysA_eraseA_sublist l k).nodup h

/-! ### List getD and set helpers, for array-style access in the page models. -/

theorem getD_set_self {α : Type} (l : List α) (i : Nat) (x d : α)
    (h : i < l.length) : (l.set i x).getD i d = x := by
  induction l generalizing i with
  | nil => simp at h
  | cons hd tl ih =>
    cases i with
    | zero => simp [List.set, List.getD]
    | succ n =>
      simp only [List.set, List.getD_cons_succ]
      exact ih n (by simpa using h)

theorem getD_set_ne {α : Type} (l : List α) (i j : Nat) (x d : α)
    (h : i ≠ j) : (l.set i x).getD j d = l.getD j d := by
  induction l generalizing i j with
  | nil => simp [List.set]
  | cons hd tl ih =>
    cases i with
    | zero =>
      cases j with
      | zero => exact absurd rfl h
      | succ m => simp [List.set]
    | succ n =>
      cases j with
      | zero => simp [List.set]
      | succ m =>
        simp only [List.set, List.getD_cons_succ]
        exact ih n m (fun hh => h (hh ▸ rfl))

theorem getD_eq_default_of_le {α : Type} (l : List α) (i : Nat) (d : α)
    (h : l.length ≤ i) : l.getD i d = d := by
  induction l generalizing i with
  | nil => simp [List.getD]
  | cons hd tl ih =>
    cases i with
    | zero => simp at h
    | succ n =>
      simp only [List.getD_cons_succ]
      exact ih n (by simpa using h)

/-! ### LRU-K replacer

Translated from LRUKReplacer in the buffer sources.  The node store is the
unordered map from frame id to per-frame state; history entries are kept
most recent first (push_front), so the oldest retained timestamp is the
last element.  The history list and cache list keep frame ids with the
most recently inserted frame in front (push_front); the maps the C++ code
keeps alongside the lists are pure iterator bookkeeping and are represented
by list membership.  Fatal BUSTUB_ASSERT failures are modelled by returning
none. -/

namespace LRUK

structure LRUKNode where
  history : List Nat
  isEvictable : Bool
deriving DecidableEq, Repr

def emptyNode : LRUKNode := ⟨[], false⟩

structure Replacer where
  nodeStore : List (Nat × LRUKNode)
  historyList : List Nat
  cacheList : List Nat
  currSize : Nat
  currentTimestamp : Nat
  k : Nat
  replacerSize : Nat
deriving DecidableEq, Repr

def mkReplacer (numFrames k : Nat) : Replacer :=
  { nodeStore := [], historyList := [], cacheList := [], currSize := 0,
    currentTimestamp := 0, k := k, replacerSize := numFrames }

def AddToHistoryList (s : Replacer) (f : Nat) : Replacer :=
  { s with historyList := f :: s.historyList }

def AddToCacheList (s : Replacer) (f : Nat) : Replacer :=
  { s with cacheList := f :: s.cacheList }

def RemoveFromHistoryList (s : Replacer) (f : Nat) : Replacer :=
  { s with historyList := s.historyList.erase f }

def RemoveFromCacheList (s : Replacer) (f : Nat) : Replacer :=
  { s with cacheList := s.cacheList.erase f }

def RecordAccess (s : Replacer) (f : Nat) : Option Replacer :=
  if f < s.replacerSize then
    let ts := s.currentTimestamp + 1
    let node := (lookupA s.nodeStore f).getD emptyNode
    let oldCount := node.history.length
    let h1 := ts :: node.history
    let h2 := if s.k < h1.length then h1.dropLast else h1
    let node2 : LRUKNode := ⟨h2, node.isEvictable⟩
    let s1 := { s with nodeStore := insertA s.nodeStore f node2, currentTimestamp := ts }
    if node.isEvictable ∧ oldCount < s.k ∧ h2.length = s.k then
      some (AddToCacheList (RemoveFromHistoryList s1 f) f)
    else
      some s1
  else none

def SetEvictable (s : Replacer) (f : Nat) (b : Bool) : Option Replacer :=
  if f < s.replacerSize then
    match lookupA s.nodeStore f with
    | none => some s
    | some node =>
      if node.isEvictable = b then some s
      else
        let node2 : LRUKNode := ⟨node.history, b⟩
        let s1 := { s with nodeStore := insertA s.nodeStore f node2 }
        if b then
          let s2 := { s1 with currSize := s1.currSize + 1 }
          if node.history.length < s.k then some (AddToHistoryList s2 f)
          else some (AddToCacheList s2 f)
        else
          let s2 := { s1 with currSize := s1.currSize - 1 }
          if f ∈ s.historyList then some (RemoveFromHistoryList s2 f)
          else if f ∈ s.cacheList then some (RemoveFromCacheList s2 f)
          else some s2
  else none

/-- The scan over the cache list inside Evict: victim starts out absent
(victim_frame = -1, earliest = SIZE_MAX in the C++), and each frame whose
oldest retained (k-th most recent) timestamp is strictly smaller than the
best so far replaces it. -/
def scanCache (store : List (Nat × LRUKNode)) :
    List Nat → Option (Nat × Nat) → Option (Nat × Nat)
  | [], best => best
  | f :: rest, best =>
    let node := (lookupA store f).getD emptyNode
    let kts := node.history.getLastD 0
    let best2 := match best with
      | none => some (f, kts)
      | some (bf, bts) => if kts < bts then some (f, kts) else some (bf, bts)
    scanCache store rest best2

def Evict (s : Replacer) : Option (Nat × Replacer) :=
  if s.currSize = 0 then none
  else if s.historyList ≠ [] then
    let f := s.historyList.getLastD 0
    some (f, { s with historyList := s.historyList.dropLast,
                      nodeStore := eraseA s.nodeStore f,
                      currSize := s.currSize - 1 })
  else
    match scanCache s.nodeStore s.cacheList none with
    | some (f, _) =>
      some (f, { s with cacheList := s.cacheList.erase f,
                        nodeStore := eraseA s.nodeStore f,
                        currSize := s.currSize - 1 })
    | none => none

def Remove (s : Replacer) (f : Nat) : Option Replacer :=
  if f < s.replacerSize then
    match lookupA s.nodeStore f with
    | none => some s
    | some node =>
      if node.isEvictable = false then none
      else
        let s1 := { s with currSize := s.currSize - 1 }
        let s2 := if node.history.length < s.k then RemoveFromHistoryList s1 f
                  else RemoveFromCacheList s1 f
        some { s2 with nodeStore := eraseA s2.nodeStore f }
  else none

def Size (s : Replacer) : Nat := s.currSize

end LRUK

/-! ### Claims C3 and C10: replacer theorems -/

/-- State reached by: RecordAccess(0); RecordAccess(1); SetEvictable(1, true);
SetEvictable(0, true) on a replacer with replacer_size 4 and K = 2.  Frame 0
has one recorded access at timestamp 1, frame 1 one recorded access at
timestamp 2; both are evictable and both have fewer than K accesses. -/
def c3run : Option LRUK.Replacer :=
  (LRUK.RecordAccess (LRUK.mkReplacer 4 2) 0).bind fun s1 =>
  (LRUK.RecordAccess s1 1).bind fun s2 =>
  (LRUK.SetEvictable s2 1 true).bind fun s3 =>
  LRUK.SetEvictable s3 0 true

def c3state : LRUK.Replacer := c3run.getD (LRUK.mkReplacer 4 2)

/-- C3, counterexample evaluation: in c3state both evictable frames have
fewer than K = 2 recorded accesses, frame 0 has the earliest first recorded
access timestamp (1, versus 2 for frame 1), so the claimed policy must
evict frame 0; the code evicts frame 1, because the history list is ordered
by the moment a frame became evictable, not by first access. -/
theorem c3_evict_ignores_first_access_order :
    c3run = some c3state ∧
    lookupA c3state.nodeStore 0 = some ⟨[1], true⟩ ∧
    lookupA c3state.nodeStore 1 = some ⟨[2], true⟩ ∧
    (LRUK.Evict c3state).map Prod.fst = some 1 := by
  refine ⟨by decide, by decide, by decide, by decide⟩

/-- C10: for an in-range frame id with no recorded access (no node-store
entry), Remove returns silently with the replacer unchanged; the fatal
assertion (modelled by the none result) fires exactly when the frame is
tracked and its evictable bit is unset. -/
theorem c10_remove_untracked_is_silent (s : LRUK.Replacer) (f : Nat)
    (hf : f < s.replacerSize) :
    (lookupA s.nodeStore f = none → LRUK.Remove s f = some s) ∧
    (LRUK.Remove s f = none ↔
      ∃ n, lookupA s.nodeStore f = some n ∧ n.isEvictable = false) := by
  constructor
  · intro h
    simp [LRUK.Remove, hf, h]
  · constructor
    · intro h
      cases hl : lookupA s.nodeStore f with
      | none =>
        exfalso
        have h0 : LRUK.Remove s f = some s := by simp [LRUK.Remove, hf, hl]
        rw [h0] at h
        exact Option.noConfusion h
      | some n =>
        by_cases he : n.isEvictable = false
        · exact ⟨n, rfl, he⟩
        · exfalso
          simp [LRUK.Remove, hf, hl, he] at h
    · rintro ⟨n, hl, he⟩
      simp [LRUK.Remove, hf, hl, he]

/-- C10 witness: on the concrete state c3state (which tracks frames 0 and
1 only), Remove of the untracked in-range frame 3 returns the state
unchanged. -/
theorem c10_witness : LRUK.Remove c3state 3 = some c3state :=
  (c10_remove_untracked_is_silent c3state 3 (by decide)).1 (by decide)

/-! ### Extendible hash table

Translated from ExtendibleHashTable in the container sources.  The
directory holds shared references to buckets; shared ownership is modelled
by an arena (the buckets list) with the directory holding arena indices, so
pointer equality of directory entries becomes index equality.  The key type
is Nat and the std::hash function is an explicit parameter of every
operation (libstdc++ hashes integral keys to themselves, so concrete runs
instantiate it with the identity).  The split loop inside Insert takes a
fuel argument; none marks fuel exhaustion, which cannot occur for a
separating hash. -/

namespace EHT

structure Bucket where
  items : List (Nat × Int)
  depth : Nat
deriving DecidableEq, Repr

def emptyBucket : Bucket := ⟨[], 0⟩

structure HashTable where
  bucketSize : Nat
  globalDepth : Nat
  numBuckets : Nat
  dir : List Nat
  buckets : List Bucket
deriving DecidableEq, Repr

/-- Constructor: one bucket of local depth 0, global depth 0. -/
def mkTable (bucketSize : Nat) : HashTable :=
  { bucketSize := bucketSize, globalDepth := 0, numBuckets := 1,
    dir := [0], buckets := [⟨[], 0⟩] }

def IndexOf (hash : Nat → Nat) (globalDepth : Nat) (key : Nat) : Nat :=
  hash key &&& ((1 <<< globalDepth) - 1)

/-- Bucket::Find: scan the item list for the key. -/
def bucketFind : List (Nat × Int) → Nat → Option Int
  | [], _ => none
  | (k, v) :: rest, key => if k = key then some v else bucketFind rest key

/-- The update-in-place part of Bucket::Insert: replace the value of the
first pair whose key matches. -/
def updateFirst : List (Nat × Int) → Nat → Int → List (Nat × Int)
  | [], _, _ => []
  | (k, v) :: rest, key, val =>
    if k = key then (key, val) :: rest else (k, v) :: updateFirst rest key val

/-- Bucket::Insert: update in place if the key exists, fail (none) if the
bucket is full, else append.  IsFull compares the list size with the
bucket capacity. -/
def bucketInsert (cap : Nat) (b : Bucket) (key : Nat) (val : Int) : Option Bucket :=
  if (bucketFind b.items key).isSome then some ⟨updateFirst b.items key val, b.depth⟩
  else if cap ≤ b.items.length then none
  else some ⟨b.items ++ [(key, val)], b.depth⟩

/-- Bucket::Remove: drop the first pair whose key matches; none when the
key is absent (the C++ returns false and leaves the list unchanged). -/
def bucketRemove : List (Nat × Int) → Nat → Option (List (Nat × Int))
  | [], _ => none
  | (k, v) :: rest, key =>
    if k = key then some rest
    else (bucketRemove rest key).map fun r => (k, v) :: r

def Find (hash : Nat → Nat) (s : HashTable) (key : Nat) : Option Int :=
  bucketFind ((s.buckets.getD (s.dir.getD (IndexOf hash s.globalDepth key) 0) emptyBucket).items) key

def Remove (hash : Nat → Nat) (s : HashTable) (key : Nat) : Option HashTable :=
  let idx := IndexOf hash s.globalDepth key
  let bi := s.dir.getD idx 0
  let b := s.buckets.getD bi emptyBucket
  (bucketRemove b.items key).map fun items2 =>
    { s with buckets := s.buckets.set bi ⟨items2, b.depth⟩ }

/-- The rehash loop of the split: iterate the saved items of the full
bucket in order, appending each one either to the surviving bucket or to
the new sibling according to bit (local_depth - 1) of its masked hash. -/
def rehashLoop (hash : Nat → Nat) (localDepth : Nat) :
    List (Nat × Int) → List (Nat × Int) → List (Nat × Int) →
    (List (Nat × Int) × List (Nat × Int))
  | [], stay, moved => (stay, moved)
  | item :: rest, stay, moved =>
    let hv := hash item.1
    let bucketIndex := hv &&& ((1 <<< localDepth) - 1)
    if bucketIndex &&& (1 <<< (localDepth - 1)) = 0 then
      rehashLoop hash localDepth rest (stay ++ [item]) moved
    else
      rehashLoop hash localDepth rest stay (moved ++ [item])

/-- The directory-update loop of the split: every slot that references the
split bucket and whose index has bit (local_depth - 1) set is redirected to
the new sibling; i0 is the index of the first slot of the remaining
list. -/
def redirectDir (oldIdx newIdx bit : Nat) : List Nat → Nat → List Nat
  | [], _ => []
  | d :: rest, i0 =>
    (if d = oldIdx ∧ (i0 >>> bit) &&& 1 = 1 then newIdx else d) ::
      redirectDir oldIdx newIdx bit rest (i0 + 1)

/-- One iteration of the while loop in Insert after bucketInsert failed:
double the directory when the local depth has reached the global depth,
bump the local depth, allocate the sibling bucket, rehash the items and
redirect the aliased directory slots. -/
def splitStep (hash : Nat → Nat) (s : HashTable) (key : Nat) : HashTable :=
  let idx := IndexOf hash s.globalDepth key
  let bi := s.dir.getD idx 0
  let target := s.buckets.getD bi emptyBucket
  let localDepth := target.depth
  let s1 := if localDepth = s.globalDepth then
      { s with globalDepth := s.globalDepth + 1, dir := s.dir ++ s.dir }
    else s
  let ld2 := localDepth + 1
  let (stay, moved) := rehashLoop hash ld2 target.items [] []
  let newIdx := s1.buckets.length
  { s1 with
      buckets := (s1.buckets.set bi ⟨stay, ld2⟩) ++ [⟨moved, ld2⟩],
      dir := redirectDir bi newIdx (ld2 - 1) s1.dir 0,
      numBuckets := s1.numBuckets + 1 }

def Insert (hash : Nat → Nat) : Nat → HashTable → Nat → Int → Option HashTable
  | 0, _, _, _ => none
  | fuel + 1, s, key, val =>
    let idx := IndexOf hash s.globalDepth key
    let bi := s.dir.getD idx 0
    let target := s.buckets.getD bi emptyBucket
    match bucketInsert s.bucketSize target key val with
    | some b2 => some { s with buckets := s.buckets.set bi b2 }
    | none => Insert hash fuel (splitStep hash s key) key val

end EHT

/-! ### Claim C9: inserting an existing key updates in place -/

namespace EHT

/-- The directory slot (arena index) that Insert, Find and Remove use for a
key: dir_[IndexOf(key)]. -/
def targetIdx (hash : Nat → Nat) (s : HashTable) (key : Nat) : Nat :=
  s.dir.getD (IndexOf hash s.globalDepth key) 0

/-- The bucket that Insert, Find and Remove use for a key. -/
def targetBucket (hash : Nat → Nat) (s : HashTable) (key : Nat) : Bucket :=
  s.buckets.getD (targetIdx hash s key) emptyBucket

theorem bucketFind_updateFirst_self (items : List (Nat × Int)) (key : Nat) (val : Int)
    (h : (bucketFind items key).isSome) :
    bucketFind (updateFirst items key val) key = some val := by
  induction items with
  | nil => simp [bucketFind] at h
  | cons hd tl ih =>
    obtain ⟨k, v⟩ := hd
    by_cases hk : k = key
    · simp [bucketFind, updateFirst, hk]
    · simp only [bucketFind, updateFirst, if_neg hk] at h ⊢
      exact ih h

theorem bucketFind_updateFirst_ne (items : List (Nat × Int)) (key k2 : Nat) (val : Int)
    (h : k2 ≠ key) :
    bucketFind (updateFirst items key val) k2 = bucketFind items k2 := by
  induction items with
  | nil => simp [updateFirst]
  | cons hd tl ih =>
    obtain ⟨k, v⟩ := hd
    by_cases hk : k = key
    · have h2 : ¬ key = k2 := fun hh => h hh.symm
      have h3 : ¬ k = k2 := fun hh => h2 (hk ▸ hh)
      simp only [updateFirst, if_pos hk, bucketFind, if_neg h2, if_neg h3]
    · by_cases h2 : k = k2
      · simp only [updateFirst, if_neg hk, bucketFind, if_pos h2]
      · simp only [updateFirst, if_neg hk, bucketFind, if_neg h2, ih]

theorem targetIdx_lt_of_found (hash : Nat → Nat) (s : HashTable) (key : Nat)
    (h : (bucketFind (targetBucket hash s key).items key).isSome) :
    targetIdx hash s key < s.buckets.length := by
  by_contra hge
  have : targetBucket hash s key = emptyBucket := by
    unfold targetBucket
    exact getD_eq_default_of_le _ _ _ (Nat.le_of_not_lt hge)
  rw [this] at h
  simp [emptyBucket, bucketFind] at h

/-- The bucket produced by the update-in-place branch of Bucket::Insert. -/
def updatedBucket (hash : Nat → Nat) (s : HashTable) (key : Nat) (val : Int) : Bucket :=
  Bucket.mk (updateFirst (targetBucket hash s key).items key val)
    (targetBucket hash s key).depth

/-- The table state after an update-in-place insert. -/
def inPlaceResult (hash : Nat → Nat) (s : HashTable) (key : Nat) (val : Int) : HashTable :=
  { s with buckets := s.buckets.set (targetIdx hash s key) (updatedBucket hash s key val) }

/-- C9: when the key is already stored in its target bucket, Insert
rewrites that value in place on the first loop iteration and returns: no
split happens, the global depth, bucket count and directory are untouched,
a subsequent Find of the key yields the new value, and Find of any other
key is unchanged. -/
theorem c9_insert_existing_updates_in_place (hash : Nat → Nat) (s : HashTable)
    (key : Nat) (val : Int) (fuel : Nat)
    (hmem : (bucketFind (targetBucket hash s key).items key).isSome) :
    Insert hash (fuel + 1) s key val = some (inPlaceResult hash s key val) ∧
    ∀ s2, Insert hash (fuel + 1) s key val = some s2 →
      s2.globalDepth = s.globalDepth ∧
      s2.numBuckets = s.numBuckets ∧
      s2.dir = s.dir ∧
      s2.bucketSize = s.bucketSize ∧
      Find hash s2 key = some val ∧
      (∀ k2, k2 ≠ key → Find hash s2 k2 = Find hash s k2) := by
  have hlt := targetIdx_lt_of_found hash s key hmem
  have hins : bucketInsert s.bucketSize (targetBucket hash s key) key val =
      some (updatedBucket hash s key val) := by
    unfold bucketInsert updatedBucket
    rw [if_pos hmem]
  have hmain : Insert hash (fuel + 1) s key val = some (inPlaceResult hash s key val) := by
    unfold Insert
    dsimp only
    rw [show s.buckets.getD (s.dir.getD (IndexOf hash s.globalDepth key) 0) emptyBucket =
          targetBucket hash s key from rfl]
    simp only [hins]
    rfl
  refine ⟨hmain, ?_⟩
  intro s2 h2
  rw [hmain] at h2
  obtain rfl : _ = s2 := Option.some.inj h2
  refine ⟨rfl, rfl, rfl, rfl, ?_, ?_⟩
  · unfold Find
    rw [show ((inPlaceResult hash s key val).dir.getD
          (IndexOf hash (inPlaceResult hash s key val).globalDepth key) 0) =
          targetIdx hash s key from rfl]
    rw [show (inPlaceResult hash s key val).buckets.getD (targetIdx hash s key) emptyBucket =
          updatedBucket hash s key val from getD_set_self _ _ _ _ hlt]
    exact bucketFind_updateFirst_self _ _ _ hmem
  · intro k2 hk2
    unfold Find
    by_cases hsame : s.dir.getD (IndexOf hash s.globalDepth k2) 0 = targetIdx hash s key
    · rw [show ((inPlaceResult hash s key val).dir.getD
            (IndexOf hash (inPlaceResult hash s key val).globalDepth k2) 0) =
            s.dir.getD (IndexOf hash s.globalDepth k2) 0 from rfl]
      rw [hsame]
      rw [show (inPlaceResult hash s key val).buckets.getD (targetIdx hash s key) emptyBucket =
            updatedBucket hash s key val from getD_set_self _ _ _ _ hlt]
      rw [show s.buckets.getD (targetIdx hash s key) emptyBucket =
            targetBucket hash s key from rfl]
      exact bucketFind_updateFirst_ne _ _ _ _ hk2
    · rw [show ((inPlaceResult hash s key val).dir.getD
            (IndexOf hash (inPlaceResult hash s key val).globalDepth k2) 0) =
            s.dir.getD (IndexOf hash s.globalDepth k2) 0 from rfl]
      rw [show (inPlaceResult hash s key val).buckets.getD
            (s.dir.getD (IndexOf hash s.globalDepth k2) 0) emptyBucket =
            s.buckets.getD (s.dir.getD (IndexOf hash s.globalDepth k2) 0) emptyBucket from
          getD_set_ne _ _ _ _ _ (fun hh => hsame hh.symm)]

/-- C9 witness: table of bucket size 1 holding key 0 with value 100 in a
full bucket; Insert(0, 999) rewrites in place, Find(0) now yields 999 and
Find(1) is unchanged. -/
def c9state : HashTable :=
  (Insert id 4 (mkTable 1) 0 100).getD (mkTable 1)

def c9after : HashTable :=
  (Insert id 4 c9state 0 999).getD (mkTable 1)

theorem c9_witness :
    Insert id 4 c9state 0 999 = some c9after ∧
    c9after.globalDepth = c9state.globalDepth ∧
    c9after.numBuckets = c9state.numBuckets ∧
    c9after.dir = c9state.dir ∧
    Find id c9after 0 = some 999 ∧
    Find id c9after 1 = Find id c9state 1 := by
  have h := c9_insert_existing_updates_in_place id c9state 0 999 3 (by decide)
  have hmain : Insert id 4 c9state 0 999 = some c9after := by decide
  have hrest := h.2 c9after hmain
  exact ⟨hmain, hrest.1, hrest.2.1, hrest.2.2.1, hrest.2.2.2.2.1,
         hrest.2.2.2.2.2 1 (by decide)⟩

end EHT

/-! ### Claim C4: the split algorithm of Insert on a full bucket -/

namespace EHT

/-- The bit test of the rehash loop equals testing bit (local_depth - 1) of
the raw hash value: masking to local_depth + 1 low bits keeps bit
local_depth intact. -/
theorem maskBit_eq_testBit (hv ld : Nat) :
    ((hv &&& ((1 <<< (ld + 1)) - 1)) &&& (1 <<< ld) = 0) ↔ Nat.testBit hv ld = false := by
  rw [Nat.shiftLeft_eq, Nat.shiftLeft_eq, one_mul, one_mul,
      Nat.and_pow_two_sub_one_eq_mod, Nat.and_two_pow, Nat.testBit_mod_two_pow]
  cases h : hv.testBit ld <;>
    simp [h, Nat.lt_succ_self, Nat.pos_iff_ne_zero, Nat.two_pow_pos]

/-- The bit test of the directory-redirect loop equals testBit. -/
theorem shiftRight_and_one_testBit (x n : Nat) :
    ((x >>> n) &&& 1 = 1) ↔ Nat.testBit x n = true := by
  rw [Nat.and_one_is_mod, Nat.shiftRight_eq_div_pow, Nat.testBit_to_div_mod]
  simp

/-- The rehash loop partitions the saved items by bit (local_depth - 1) of
their hash, preserving order: items with the bit clear are appended to the
surviving bucket, items with the bit set to the sibling. -/
theorem rehashLoop_filter (hash : Nat → Nat) (ld : Nat)
    (items stay moved : List (Nat × Int)) :
    rehashLoop hash (ld + 1) items stay moved =
      (stay ++ items.filter (fun it => !(Nat.testBit (hash it.1) ld)),
       moved ++ items.filter (fun it => Nat.testBit (hash it.1) ld)) := by
  induction items generalizing stay moved with
  | nil => simp [rehashLoop]
  | cons it rest ih =>
    unfold rehashLoop
    dsimp only
    rw [show (ld + 1) - 1 = ld from rfl]
    by_cases hb : Nat.testBit (hash it.1) ld = false
    · rw [if_pos ((maskBit_eq_testBit (hash it.1) ld).mpr hb)]
      rw [ih]
      simp [List.filter_cons, hb, List.append_assoc]
    · have hb2 : Nat.testBit (hash it.1) ld = true := by
        cases h : Nat.testBit (hash it.1) ld
        · exact absurd h hb
        · rfl
      rw [if_neg (fun hc => hb ((maskBit_eq_testBit (hash it.1) ld).mp hc))]
      rw [ih]
      simp [List.filter_cons, hb2, List.append_assoc]

theorem redirectDir_length (o n b : Nat) (l : List Nat) (i0 : Nat) :
    (redirectDir o n b l i0).length = l.length := by
  induction l generalizing i0 with
  | nil => rfl
  | cons d rest ih => simp [redirectDir, ih]

/-- Pointwise description of the directory-redirect loop: slot j is sent
to the sibling exactly when it referenced the split bucket and bit b of its
absolute index is set. -/
theorem redirectDir_getD (o n b : Nat) (l : List Nat) (i0 j : Nat) (h : j < l.length) :
    (redirectDir o n b l i0).getD j 0 =
      if l.getD j 0 = o ∧ Nat.testBit (i0 + j) b = true then n else l.getD j 0 := by
  induction l generalizing i0 j with
  | nil => simp at h
  | cons d rest ih =>
    cases j with
    | zero =>
      simp only [redirectDir, List.getD_cons_zero, Nat.add_zero]
      simp only [shiftRight_and_one_testBit]
    | succ m =>
      simp only [redirectDir, List.getD_cons_succ]
      rw [ih (i0 + 1) m (by simpa using Nat.lt_of_succ_lt_succ h)]
      rw [show i0 + 1 + m = i0 + (m + 1) from by omega]

/-- C4, amended: when Insert finds its target bucket full (and the key is
not an update), one iteration of the split loop runs and the insert is
retried on the split state; the split increments the bucket count,
allocates the sibling at arena index s.buckets.length with local depth one
above the old target depth, raises the target to the same depth, partitions
the old items by bit (local_depth - 1) of their hash, doubles the directory
(replicating every old slot) and increments the global depth exactly when
the old local depth equalled the global depth, and redirects exactly those
directory slots that referenced the target bucket and whose index has bit
(local_depth - 1) set; slots referencing other buckets are unchanged. -/
theorem c4_full_bucket_split (hash : Nat → Nat) (s : HashTable) (key : Nat) (val : Int)
    (hfull : bucketInsert s.bucketSize (targetBucket hash s key) key val = none)
    (hbi : targetIdx hash s key < s.buckets.length) :
    (∀ fuel, Insert hash (fuel + 1) s key val =
        Insert hash fuel (splitStep hash s key) key val) ∧
    (splitStep hash s key).numBuckets = s.numBuckets + 1 ∧
    (splitStep hash s key).buckets.length = s.buckets.length + 1 ∧
    ((splitStep hash s key).buckets.getD (targetIdx hash s key) emptyBucket).depth
        = (targetBucket hash s key).depth + 1 ∧
    ((splitStep hash s key).buckets.getD s.buckets.length emptyBucket).depth
        = (targetBucket hash s key).depth + 1 ∧
    ((splitStep hash s key).buckets.getD (targetIdx hash s key) emptyBucket).items
        = (targetBucket hash s key).items.filter
            (fun it => !(Nat.testBit (hash it.1) (targetBucket hash s key).depth)) ∧
    ((splitStep hash s key).buckets.getD s.buckets.length emptyBucket).items
        = (targetBucket hash s key).items.filter
            (fun it => Nat.testBit (hash it.1) (targetBucket hash s key).depth) ∧
    ((targetBucket hash s key).depth = s.globalDepth →
      (splitStep hash s key).globalDepth = s.globalDepth + 1 ∧
      (splitStep hash s key).dir.length = 2 * s.dir.length ∧
      ∀ j, j < s.dir.length →
        ((splitStep hash s key).dir.getD j 0 =
          if s.dir.getD j 0 = targetIdx hash s key ∧
             Nat.testBit j (targetBucket hash s key).depth = true
          then s.buckets.length else s.dir.getD j 0) ∧
        ((splitStep hash s key).dir.getD (s.dir.length + j) 0 =
          if s.dir.getD j 0 = targetIdx hash s key ∧
             Nat.testBit (s.dir.length + j) (targetBucket hash s key).depth = true
          then s.buckets.length else s.dir.getD j 0)) ∧
    ((targetBucket hash s key).depth ≠ s.globalDepth →
      (splitStep hash s key).globalDepth = s.globalDepth ∧
      (splitStep hash s key).dir.length = s.dir.length ∧
      ∀ j, j < s.dir.length →
        (splitStep hash s key).dir.getD j 0 =
          if s.dir.getD j 0 = targetIdx hash s key ∧
             Nat.testBit j (targetBucket hash s key).depth = true
          then s.buckets.length else s.dir.getD j 0) := by
  have hretry : ∀ fuel, Insert hash (fuel + 1) s key val =
      Insert hash fuel (splitStep hash s key) key val := by
    intro fuel
    have hstep : Insert hash (fuel + 1) s key val =
        match bucketInsert s.bucketSize (targetBucket hash s key) key val with
        | some b2 => some { s with buckets := s.buckets.set (targetIdx hash s key) b2 }
        | none => Insert hash fuel (splitStep hash s key) key val := rfl
    rw [hstep, hfull]
  have hsplit : splitStep hash s key =
      { bucketSize := s.bucketSize,
        globalDepth := if (targetBucket hash s key).depth = s.globalDepth
          then s.globalDepth + 1 else s.globalDepth,
        numBuckets := s.numBuckets + 1,
        dir := redirectDir (targetIdx hash s key) s.buckets.length
                 (targetBucket hash s key).depth
                 (if (targetBucket hash s key).depth = s.globalDepth
                  then s.dir ++ s.dir else s.dir) 0,
        buckets := (s.buckets.set (targetIdx hash s key)
            (Bucket.mk ((targetBucket hash s key).items.filter
                (fun it => !(Nat.testBit (hash it.1) (targetBucket hash s key).depth)))
              ((targetBucket hash s key).depth + 1)))
          ++ [Bucket.mk ((targetBucket hash s key).items.filter
                (fun it => Nat.testBit (hash it.1) (targetBucket hash s key).depth))
              ((targetBucket hash s key).depth + 1)] } := by
    unfold splitStep
    dsimp only
    rw [show s.buckets.getD (s.dir.getD (IndexOf hash s.globalDepth key) 0) emptyBucket =
          targetBucket hash s key from rfl]
    rw [rehashLoop_filter]
    dsimp only [List.nil_append]
    rw [show (if (targetBucket hash s key).depth = s.globalDepth
          then { s with globalDepth := s.globalDepth + 1, dir := s.dir ++ s.dir }
          else s).buckets = s.buckets from by split <;> rfl]
    rw [show (if (targetBucket hash s key).depth = s.globalDepth
          then { s with globalDepth := s.globalDepth + 1, dir := s.dir ++ s.dir }
          else s).dir = (if (targetBucket hash s key).depth = s.globalDepth
          then s.dir ++ s.dir else s.dir) from by split <;> rfl]
    rw [show (if (targetBucket hash s key).depth = s.globalDepth
          then { s with globalDepth := s.globalDepth + 1, dir := s.dir ++ s.dir }
          else s).numBuckets = s.numBuckets from by split <;> rfl]
    rw [show (if (targetBucket hash s key).depth = s.globalDepth
          then { s with globalDepth := s.globalDepth + 1, dir := s.dir ++ s.dir }
          else s).globalDepth = (if (targetBucket hash s key).depth = s.globalDepth
          then s.globalDepth + 1 else s.globalDepth) from by split <;> rfl]
    rw [show (if (targetBucket hash s key).depth = s.globalDepth
          then { s with globalDepth := s.globalDepth + 1, dir := s.dir ++ s.dir }
          else s).bucketSize = s.bucketSize from by split <;> rfl]
    rw [show (targetBucket hash s key).depth + 1 - 1 = (targetBucket hash s key).depth from rfl]
    rw [show s.dir.getD (IndexOf hash s.globalDepth key) 0 = targetIdx hash s key from rfl]
  have hsetlen : (s.buckets.set (targetIdx hash s key)
      (Bucket.mk ((targetBucket hash s key).items.filter
          (fun it => !(Nat.testBit (hash it.1) (targetBucket hash s key).depth)))
        ((targetBucket hash s key).depth + 1))).length = s.buckets.length :=
    List.length_set _ _ _
  refine ⟨hretry, ?_, ?_, ?_, ?_, ?_, ?_, ?_, ?_⟩
  · rw [hsplit]
  · rw [hsplit]
    simp only [List.length_append, List.length_set, List.length_cons, List.length_nil]
  · rw [hsplit]
    dsimp only
    rw [List.getD_append _ _ _ _ (hsetlen ▸ hbi), getD_set_self _ _ _ _ hbi]
  · rw [hsplit]
    dsimp only
    rw [List.getD_append_right _ _ _ _ (le_of_eq hsetlen), hsetlen]
    simp
  · rw [hsplit]
    dsimp only
    rw [List.getD_append _ _ _ _ (hsetlen ▸ hbi), getD_set_self _ _ _ _ hbi]
  · rw [hsplit]
    dsimp only
    rw [List.getD_append_right _ _ _ _ (le_of_eq hsetlen), hsetlen]
    simp
  · intro hEq
    rw [hsplit]
    dsimp only
    rw [if_pos hEq, if_pos hEq]
    refine ⟨rfl, ?_, ?_⟩
    · rw [redirectDir_length]
      simp [List.length_append, two_mul]
    · intro j hj
      have hj1 : j < (s.dir ++ s.dir).length := by
        simp only [List.length_append]
        omega
      have hj2 : s.dir.length + j < (s.dir ++ s.dir).length := by
        simp only [List.length_append]
        omega
      constructor
      · rw [redirectDir_getD _ _ _ _ _ _ hj1, Nat.zero_add,
            List.getD_append _ _ _ _ hj]
      · rw [redirectDir_getD _ _ _ _ _ _ hj2, Nat.zero_add,
            List.getD_append_right _ _ _ _ (Nat.le_add_right _ _),
            Nat.add_sub_cancel_left]
  · intro hNe
    rw [hsplit]
    dsimp only
    rw [if_neg hNe, if_neg hNe]
    refine ⟨rfl, ?_, ?_⟩
    · rw [redirectDir_length]
    · intro j hj
      rw [redirectDir_getD _ _ _ _ _ _ hj, Nat.zero_add]

end EHT

/-- Table of bucket size 1 after Insert(0,100) and Insert(1,101) with the
identity hash: global depth 1, dir = [0, 1], bucket 0 holds key 0,
bucket 1 holds key 1. -/
def c4run0 : Option EHT.HashTable :=
  (EHT.Insert id 10 (EHT.mkTable 1) 0 100).bind fun s1 => EHT.Insert id 10 s1 1 101

def c4state : EHT.HashTable := c4run0.getD (EHT.mkTable 1)

def c4after : EHT.HashTable := (EHT.Insert id 10 c4state 2 102).getD (EHT.mkTable 1)

/-- C4, counterexample: Insert(2,102) into c4state finds its target bucket
(arena index 0, local depth 1 = global depth 1) full, so the directory
doubles to length 4 and the split sibling is allocated at arena index 2
with local depth 2.  Directory slot 3 has bit (local_depth - 1) = bit 1 of
its index set, yet after the insert it still references bucket 1 (the
bucket of key 1), not the sibling: the code only redirects slots that
previously referenced the split bucket, so the claim that every slot with
that bit set points to the sibling is false. -/
theorem c4_counterexample_slot3 :
    c4run0 = some c4state ∧
    EHT.bucketInsert c4state.bucketSize (EHT.targetBucket id c4state 2) 2 102 = none ∧
    (EHT.targetBucket id c4state 2).depth = 1 ∧
    c4state.globalDepth = 1 ∧
    c4state.buckets.length = 2 ∧
    EHT.Insert id 10 c4state 2 102 = some c4after ∧
    c4after.dir.length = 4 ∧
    (c4after.buckets.getD 2 EHT.emptyBucket).depth = 2 ∧
    (c4after.buckets.getD 2 EHT.emptyBucket).items = [(2, 102)] ∧
    Nat.testBit 3 1 = true ∧
    c4after.dir.getD 3 0 = 1 := by
  refine ⟨by decide, by decide, by decide, by decide, by decide, by decide,
    by decide, by decide, by decide, by decide, by decide⟩

/-- C4 witness for the amended theorem, at the concrete full-bucket insert
of key 2 into c4state: the split bumps the bucket count and raises the
target and sibling depths to 2, and the retried insert equals the insert
into the split state. -/
theorem c4_witness :
    EHT.Insert id 10 c4state 2 102 = EHT.Insert id 9 (EHT.splitStep id c4state 2) 2 102 ∧
    (EHT.splitStep id c4state 2).numBuckets = c4state.numBuckets + 1 ∧
    ((EHT.splitStep id c4state 2).buckets.getD (EHT.targetIdx id c4state 2)
        EHT.emptyBucket).depth = (EHT.targetBucket id c4state 2).depth + 1 ∧
    ((EHT.splitStep id c4state 2).buckets.getD c4state.buckets.length
        EHT.emptyBucket).depth = (EHT.targetBucket id c4state 2).depth + 1 := by
  have h := EHT.c4_full_bucket_split id c4state 2 102 (by decide) (by decide)
  exact ⟨h.1 9, h.2.1, h.2.2.2.1, h.2.2.2.2.1⟩

/-! ### Internal well-formedness of the replacer state

These lemmas support the buffer-pool invariant proofs: every reachable
replacer state keeps in-range, duplicate-free candidate lists whose members
are tracked, evictable, and sorted into the history or cache list by
whether they have fewer than K recorded accesses. -/

namespace LRUK

theorem getLastD_mem : ∀ (l : List Nat) (d : Nat), l ≠ [] → l.getLastD d ∈ l := by
  intro l
  induction l with
  | nil => intro d h; exact absurd rfl h
  | cons x rest ih =>
    intro d h
    cases hr : rest with
    | nil => subst hr; simp [List.getLastD]
    | cons y rest2 =>
      subst hr
      rw [List.getLastD_cons]
      exact List.mem_cons_of_mem x (ih x (by simp))

theorem dropLast_append_getLastD : ∀ (l : List Nat) (d : Nat), l ≠ [] →
    l.dropLast ++ [l.getLastD d] = l := by
  intro l
  induction l with
  | nil => intro d h; exact absurd rfl h
  | cons x rest ih =>
    intro d h
    cases hr : rest with
    | nil => subst hr; simp [List.getLastD]
    | cons y rest2 =>
      subst hr
      rw [List.getLastD_cons]
      rw [show (x :: y :: rest2).dropLast = x :: (y :: rest2).dropLast from rfl]
      rw [List.cons_append, ih x (by simp)]

theorem nodup_getLastD_not_mem_dropLast {l : List Nat} {d : Nat}
    (hnd : l.Nodup) (h : l ≠ []) : l.getLastD d ∉ l.dropLast := by
  intro hmem
  have hsplit := dropLast_append_getLastD l d h
  rw [← hsplit] at hnd
  rcases List.nodup_append.mp hnd with ⟨-, -, hdisj⟩
  exact hdisj hmem (by simp)

theorem mem_dropLast {l : List Nat} {x : Nat} (h : x ∈ l.dropLast) : x ∈ l :=
  (List.dropLast_sublist l).subset h

/-- The well-formedness the buffer pool maintains on its replacer. -/
structure RInv (r : Replacer) : Prop where
  histLt : ∀ f, f ∈ r.historyList → f < r.replacerSize
  cacheLt : ∀ f, f ∈ r.cacheList → f < r.replacerSize
  histNodup : r.historyList.Nodup
  cacheNodup : r.cacheList.Nodup
  histMem : ∀ f, f ∈ r.historyList → ∃ n, lookupA r.nodeStore f = some n ∧
      n.isEvictable = true ∧ n.history.length < r.k
  cacheMem : ∀ f, f ∈ r.cacheList → ∃ n, lookupA r.nodeStore f = some n ∧
      n.isEvictable = true ∧ r.k ≤ n.history.length

theorem rinv_mkReplacer (n k : Nat) : RInv (mkReplacer n k) :=
  ⟨fun f hf => by simp [mkReplacer] at hf,
   fun f hf => by simp [mkReplacer] at hf,
   by simp [mkReplacer],
   by simp [mkReplacer],
   fun f hf => by simp [mkReplacer] at hf,
   fun f hf => by simp [mkReplacer] at hf⟩

theorem scanCache_mem (store : List (Nat × LRUKNode)) (fids : List Nat)
    (best : Option (Nat × Nat)) (p : Nat × Nat)
    (h : scanCache store fids best = some p) : p.1 ∈ fids ∨ best = some p := by
  induction fids generalizing best with
  | nil => exact Or.inr h
  | cons f rest ih =>
    unfold scanCache at h
    dsimp only at h
    rcases ih _ h with hmem | hbest
    · exact Or.inl (List.mem_cons_of_mem f hmem)
    · cases best with
      | none =>
        obtain rfl : (f, _) = p := Option.some.inj hbest
        exact Or.inl (List.mem_cons_self _ _)
      | some b =>
        obtain ⟨bf, bts⟩ := b
        dsimp only at hbest
        by_cases hlt : ((lookupA store f).getD emptyNode).history.getLastD 0 < bts
        · rw [if_pos hlt] at hbest
          obtain rfl : (f, _) = p := Option.some.inj hbest
          exact Or.inl (List.mem_cons_self _ _)
        · rw [if_neg hlt] at hbest
          exact Or.inr hbest

/-- RecordAccess: preserves the invariant and the bounds, keeps the history
list inside the old one, and grows the cache list by at most the accessed
frame. -/
theorem recordAccess_spec (r : Replacer) (g : Nat) (r2 : Replacer)
    (hinv : RInv r) (h : RecordAccess r g = some r2) :
    r2.replacerSize = r.replacerSize ∧ r2.k = r.k ∧
    (∀ f, f ∈ r2.historyList → f ∈ r.historyList) ∧
    (∀ f, f ∈ r2.cacheList → f ∈ r.cacheList ∨ f = g) ∧
    RInv r2 := by
  unfold RecordAccess at h
  by_cases hg : g < r.replacerSize
  · rw [if_pos hg] at h
    dsimp only at h
    set node := (lookupA r.nodeStore g).getD emptyNode with hnode
    set h1 := (r.currentTimestamp + 1) :: node.history with hh1
    set h2 := if r.k < h1.length then h1.dropLast else h1 with hh2
    set node2 : LRUKNode := ⟨h2, node.isEvictable⟩ with hnode2
    by_cases hcross : node.isEvictable = true ∧ node.history.length < r.k ∧ h2.length = r.k
    · rw [if_pos hcross] at h
      obtain rfl : _ = r2 := Option.some.inj h
      have hgcache : g ∉ r.cacheList := by
        intro hmem
        obtain ⟨n, hn, -, hlen⟩ := hinv.cacheMem g hmem
        have hnn : node = n := by rw [hnode, hn, Option.getD_some]
        have h21 := hcross.2.1
        rw [hnn] at h21
        omega
      refine ⟨rfl, rfl, ?_, ?_, ?_⟩
      · intro f hf
        exact List.mem_of_mem_erase hf
      · intro f hf
        rcases List.mem_cons.mp hf with rfl | hf2
        · exact Or.inr rfl
        · exact Or.inl hf2
      · constructor
        · intro f hf
          exact hinv.histLt f (List.mem_of_mem_erase hf)
        · intro f hf
          rcases List.mem_cons.mp hf with rfl | hf2
          · exact hg
          · exact hinv.cacheLt f hf2
        · exact hinv.histNodup.erase g
        · exact List.nodup_cons.mpr ⟨hgcache, hinv.cacheNodup⟩
        · intro f hf
          have hfg : f ≠ g := (hinv.histNodup.mem_erase_iff.mp hf).1
          have hfh : f ∈ r.historyList := (hinv.histNodup.mem_erase_iff.mp hf).2
          obtain ⟨n, hn, he, hlen⟩ := hinv.histMem f hfh
          refine ⟨n, ?_, he, hlen⟩
          show lookupA (insertA r.nodeStore g node2) f = some n
          rw [lookupA_insertA_ne _ _ _ _ hfg]
          exact hn
        · intro f hf
          rcases List.mem_cons.mp hf with rfl | hf2
          · refine ⟨node2, ?_, ?_, ?_⟩
            · show lookupA (insertA r.nodeStore f node2) f = some node2
              exact lookupA_insertA_self _ _ _
            · show node.isEvictable = true
              exact hcross.1
            · show r.k ≤ node2.history.length
              have h22 := hcross.2.2
              show r.k ≤ h2.length
              omega
          · have hfg : f ≠ g := fun hh => hgcache (hh ▸ hf2)
            obtain ⟨n, hn, he, hlen⟩ := hinv.cacheMem f hf2
            refine ⟨n, ?_, he, hlen⟩
            show lookupA (insertA r.nodeStore g node2) f = some n
            rw [lookupA_insertA_ne _ _ _ _ hfg]
            exact hn
    · rw [if_neg hcross] at h
      obtain rfl : _ = r2 := Option.some.inj h
      refine ⟨rfl, rfl, fun f hf => hf, fun f hf => Or.inl hf, ?_⟩
      constructor
      · exact hinv.histLt
      · exact hinv.cacheLt
      · exact hinv.histNodup
      · exact hinv.cacheNodup
      · intro f hf
        obtain ⟨n, hn, he, hlen⟩ := hinv.histMem f hf
        by_cases hfg : f = g
        · subst hfg
          refine ⟨node2, lookupA_insertA_self _ _ _, ?_, ?_⟩
          · rw [hnode2]
            dsimp only
            rw [hnode, hn]
            exact he
          · have hnn : node = n := by rw [hnode, hn]; rfl
            have hlen2 : node.history.length < r.k := by rw [hnn]; exact hlen
            have hne : ¬ r.k < h1.length := by rw [hh1]; simp; omega
            have hh2e : h2 = h1 := by rw [hh2, if_neg hne]
            have : h2.length = node.history.length + 1 := by rw [hh2e, hh1]; simp
            have hne2 : h2.length ≠ r.k := fun hh =>
              hcross ⟨by rw [hnn] at hnode ⊢; exact he, hlen2, hh⟩
            rw [hnode2]
            dsimp only
            omega
        · exact ⟨n, by rw [lookupA_insertA_ne _ _ _ _ hfg]; exact hn, he, hlen⟩
      · intro f hf
        obtain ⟨n, hn, he, hlen⟩ := hinv.cacheMem f hf
        by_cases hfg : f = g
        · subst hfg
          refine ⟨node2, lookupA_insertA_self _ _ _, ?_, ?_⟩
          · rw [hnode2]
            dsimp only
            rw [hnode, hn]
            exact he
          · have hnn : node = n := by rw [hnode, hn]; rfl
            have hlen2 : r.k ≤ node.history.length := by rw [hnn]; exact hlen
            have hlt : r.k < h1.length := by rw [hh1]; simp; omega
            have hh2e : h2 = h1.dropLast := by rw [hh2, if_pos hlt]
            have : h2.length = node.history.length := by
              rw [hh2e, List.length_dropLast, hh1]
              simp
            rw [hnode2]
            dsimp only
            omega
        · exact ⟨n, by rw [lookupA_insertA_ne _ _ _ _ hfg]; exact hn, he, hlen⟩
  · rw [if_neg hg] at h
    exact absurd h (by simp)

/-- SetEvictable: preserves the invariant and the bounds; both lists stay
inside the old lists extended by the toggled frame. -/
theorem setEvictable_spec (r : Replacer) (g : Nat) (b : Bool) (r2 : Replacer)
    (hinv : RInv r) (h : SetEvictable r g b = some r2) :
    r2.replacerSize = r.replacerSize ∧ r2.k = r.k ∧
    (∀ f, f ∈ r2.historyList → f ∈ r.historyList ∨ f = g) ∧
    (∀ f, f ∈ r2.cacheList → f ∈ r.cacheList ∨ f = g) ∧
    RInv r2 := by
  unfold SetEvictable at h
  by_cases hg : g < r.replacerSize
  · rw [if_pos hg] at h
    cases hl : lookupA r.nodeStore g with
    | none =>
      rw [hl] at h
      obtain rfl : _ = r2 := Option.some.inj h
      exact ⟨rfl, rfl, fun f hf => Or.inl hf, fun f hf => Or.inl hf, hinv⟩
    | some node =>
      rw [hl] at h
      dsimp only at h
      by_cases hsame : node.isEvictable = b
      · rw [if_pos hsame] at h
        obtain rfl : _ = r2 := Option.some.inj h
        exact ⟨rfl, rfl, fun f hf => Or.inl hf, fun f hf => Or.inl hf, hinv⟩
      · rw [if_neg hsame] at h
        have hdichot : g ∈ r.historyList → g ∉ r.cacheList := by
          intro h1 h2
          obtain ⟨n1, hn1, -, hl1⟩ := hinv.histMem g h1
          obtain ⟨n2, hn2, -, hl2⟩ := hinv.cacheMem g h2
          rw [hn1] at hn2
          obtain rfl : n1 = n2 := Option.some.inj hn2
          omega
        cases b
        · -- becoming non-evictable: remove from whichever list holds g
          rw [if_neg Bool.false_ne_true] at h
          by_cases h1 : g ∈ r.historyList
          · rw [if_pos h1] at h
            obtain rfl : _ = r2 := Option.some.inj h
            refine ⟨rfl, rfl, ?_, fun f hf => Or.inl hf, ?_⟩
            · intro f hf
              exact Or.inl (List.mem_of_mem_erase hf)
            refine ⟨?_, hinv.cacheLt, hinv.histNodup.erase g, hinv.cacheNodup, ?_, ?_⟩
            · intro f hf
              exact hinv.histLt f (List.mem_of_mem_erase hf)
            · intro f hf
              have hfg : f ≠ g := (hinv.histNodup.mem_erase_iff.mp hf).1
              obtain ⟨n, hn, he, hlen⟩ := hinv.histMem f (List.mem_of_mem_erase hf)
              refine ⟨n, ?_, he, hlen⟩
              show lookupA (insertA r.nodeStore g ⟨node.history, false⟩) f = some n
              rw [lookupA_insertA_ne _ _ _ _ hfg]
              exact hn
            · intro f hf
              have hfg : f ≠ g := fun hh => hdichot h1 (hh ▸ hf)
              obtain ⟨n, hn, he, hlen⟩ := hinv.cacheMem f hf
              refine ⟨n, ?_, he, hlen⟩
              show lookupA (insertA r.nodeStore g ⟨node.history, false⟩) f = some n
              rw [lookupA_insertA_ne _ _ _ _ hfg]
              exact hn
          · rw [if_neg h1] at h
            by_cases h2 : g ∈ r.cacheList
            · rw [if_pos h2] at h
              obtain rfl : _ = r2 := Option.some.inj h
              refine ⟨rfl, rfl, fun f hf => Or.inl hf, ?_, ?_⟩
              · intro f hf
                exact Or.inl (List.mem_of_mem_erase hf)
              refine ⟨hinv.histLt, ?_, hinv.histNodup, hinv.cacheNodup.erase g, ?_, ?_⟩
              · intro f hf
                exact hinv.cacheLt f (List.mem_of_mem_erase hf)
              · intro f hf
                have hfg : f ≠ g := fun hh => h1 (hh ▸ hf)
                obtain ⟨n, hn, he, hlen⟩ := hinv.histMem f hf
                refine ⟨n, ?_, he, hlen⟩
                show lookupA (insertA r.nodeStore g ⟨node.history, false⟩) f = some n
                rw [lookupA_insertA_ne _ _ _ _ hfg]
                exact hn
              · intro f hf
                have hfg : f ≠ g := (hinv.cacheNodup.mem_erase_iff.mp hf).1
                obtain ⟨n, hn, he, hlen⟩ := hinv.cacheMem f (List.mem_of_mem_erase hf)
                refine ⟨n, ?_, he, hlen⟩
                show lookupA (insertA r.nodeStore g ⟨node.history, false⟩) f = some n
                rw [lookupA_insertA_ne _ _ _ _ hfg]
                exact hn
            · rw [if_neg h2] at h
              obtain rfl : _ = r2 := Option.some.inj h
              refine ⟨rfl, rfl, fun f hf => Or.inl hf, fun f hf => Or.inl hf, ?_⟩
              refine ⟨hinv.histLt, hinv.cacheLt, hinv.histNodup, hinv.cacheNodup, ?_, ?_⟩
              · intro f hf
                obtain ⟨n, hn, he, hlen⟩ := hinv.histMem f hf
                have hfg : f ≠ g := fun hh => h1 (hh ▸ hf)
                refine ⟨n, ?_, he, hlen⟩
                show lookupA (insertA r.nodeStore g ⟨node.history, false⟩) f = some n
                rw [lookupA_insertA_ne _ _ _ _ hfg]
                exact hn
              · intro f hf
                obtain ⟨n, hn, he, hlen⟩ := hinv.cacheMem f hf
                have hfg : f ≠ g := fun hh => h2 (hh ▸ hf)
                refine ⟨n, ?_, he, hlen⟩
                show lookupA (insertA r.nodeStore g ⟨node.history, false⟩) f = some n
                rw [lookupA_insertA_ne _ _ _ _ hfg]
                exact hn
        · -- becoming evictable: the frame was not evictable, so it is in
          -- neither list; add it to history or cache by access count
          have hnh : g ∉ r.historyList := by
            intro hmem
            obtain ⟨n, hn, he, -⟩ := hinv.histMem g hmem
            rw [hl] at hn
            obtain rfl : node = n := Option.some.inj hn
            exact hsame he
          have hnc : g ∉ r.cacheList := by
            intro hmem
            obtain ⟨n, hn, he, -⟩ := hinv.cacheMem g hmem
            rw [hl] at hn
            obtain rfl : node = n := Option.some.inj hn
            exact hsame he
          rw [if_pos rfl] at h
          by_cases hlen : node.history.length < r.k
          · rw [if_pos hlen] at h
            obtain rfl : _ = r2 := Option.some.inj h
            refine ⟨rfl, rfl, ?_, fun f hf => Or.inl hf, ?_⟩
            · intro f hf
              rcases List.mem_cons.mp hf with rfl | hf2
              · exact Or.inr rfl
              · exact Or.inl hf2
            refine ⟨?_, hinv.cacheLt, ?_, hinv.cacheNodup, ?_, ?_⟩
            · intro f hf
              rcases List.mem_cons.mp hf with rfl | hf2
              · exact hg
              · exact hinv.histLt f hf2
            · exact List.nodup_cons.mpr ⟨hnh, hinv.histNodup⟩
            · intro f hf
              rcases List.mem_cons.mp hf with rfl | hf2
              · refine ⟨⟨node.history, true⟩, ?_, rfl, hlen⟩
                show lookupA (insertA r.nodeStore f ⟨node.history, true⟩) f = some _
                exact lookupA_insertA_self _ _ _
              · have hfg : f ≠ g := fun hh => hnh (hh ▸ hf2)
                obtain ⟨n, hn, he, hl2⟩ := hinv.histMem f hf2
                refine ⟨n, ?_, he, hl2⟩
                show lookupA (insertA r.nodeStore g ⟨node.history, true⟩) f = some n
                rw [lookupA_insertA_ne _ _ _ _ hfg]
                exact hn
            · intro f hf
              have hfg : f ≠ g := fun hh => hnc (hh ▸ hf)
              obtain ⟨n, hn, he, hl2⟩ := hinv.cacheMem f hf
              refine ⟨n, ?_, he, hl2⟩
              show lookupA (insertA r.nodeStore g ⟨node.history, true⟩) f = some n
              rw [lookupA_insertA_ne _ _ _ _ hfg]
              exact hn
          · rw [if_neg hlen] at h
            obtain rfl : _ = r2 := Option.some.inj h
            refine ⟨rfl, rfl, fun f hf => Or.inl hf, ?_, ?_⟩
            · intro f hf
              rcases List.mem_cons.mp hf with rfl | hf2
              · exact Or.inr rfl
              · exact Or.inl hf2
            refine ⟨hinv.histLt, ?_, hinv.histNodup, ?_, ?_, ?_⟩
            · intro f hf
              rcases List.mem_cons.mp hf with rfl | hf2
              · exact hg
              · exact hinv.cacheLt f hf2
            · exact List.nodup_cons.mpr ⟨hnc, hinv.cacheNodup⟩
            · intro f hf
              have hfg : f ≠ g := fun hh => hnh (hh ▸ hf)
              obtain ⟨n, hn, he, hl2⟩ := hinv.histMem f hf
              refine ⟨n, ?_, he, hl2⟩
              show lookupA (insertA r.nodeStore g ⟨node.history, true⟩) f = some n
              rw [lookupA_insertA_ne _ _ _ _ hfg]
              exact hn
            · intro f hf
              rcases List.mem_cons.mp hf with rfl | hf2
              · refine ⟨⟨node.history, true⟩, ?_, rfl, ?_⟩
                · show lookupA (insertA r.nodeStore f ⟨node.history, true⟩) f = some _
                  exact lookupA_insertA_self _ _ _
                · show r.k ≤ node.history.length
                  omega
              · have hfg : f ≠ g := fun hh => hnc (hh ▸ hf2)
                obtain ⟨n, hn, he, hl2⟩ := hinv.cacheMem f hf2
                refine ⟨n, ?_, he, hl2⟩
                show lookupA (insertA r.nodeStore g ⟨node.history, true⟩) f = some n
                rw [lookupA_insertA_ne _ _ _ _ hfg]
                exact hn
  · rw [if_neg hg] at h
    exact absurd h (by simp)

/-- Evict: the victim comes from one of the candidate lists, and the
remaining state keeps the invariant with shrunken lists. -/
theorem evict_spec (r : Replacer) (v : Nat) (r2 : Replacer)
    (hinv : RInv r) (h : Evict r = some (v, r2)) :
    (v ∈ r.historyList ∨ v ∈ r.cacheList) ∧
    r2.replacerSize = r.replacerSize ∧ r2.k = r.k ∧
    (∀ f, f ∈ r2.historyList → f ∈ r.historyList) ∧
    (∀ f, f ∈ r2.cacheList → f ∈ r.cacheList) ∧
    RInv r2 := by
  unfold Evict at h
  by_cases hz : r.currSize = 0
  · rw [if_pos hz] at h
    exact absurd h (by simp)
  · rw [if_neg hz] at h
    by_cases hne : r.historyList ≠ []
    · rw [if_pos hne] at h
      dsimp only at h
      obtain ⟨rfl, rfl⟩ := Prod.mk.inj (Option.some.inj h)
      have hvmem := getLastD_mem r.historyList 0 hne
      refine ⟨Or.inl hvmem, rfl, rfl, ?_, fun f hf => hf, ?_⟩
      · intro f hf
        exact mem_dropLast hf
      have hvcache : r.historyList.getLastD 0 ∉ r.cacheList := by
        intro hmem
        obtain ⟨n, hn, -, hlen⟩ := hinv.cacheMem _ hmem
        obtain ⟨n2, hn2, -, hlen2⟩ := hinv.histMem _ hvmem
        rw [hn] at hn2
        obtain rfl : n = n2 := Option.some.inj hn2
        omega
      refine ⟨?_, hinv.cacheLt, ?_, hinv.cacheNodup, ?_, ?_⟩
      · intro f hf
        exact hinv.histLt f (mem_dropLast hf)
      · exact (List.dropLast_sublist _).nodup hinv.histNodup
      · intro f hf
        have hfv : f ≠ r.historyList.getLastD 0 := by
          intro hh
          exact nodup_getLastD_not_mem_dropLast hinv.histNodup hne (hh ▸ hf)
        obtain ⟨n, hn, he, hlen⟩ := hinv.histMem f (mem_dropLast hf)
        refine ⟨n, ?_, he, hlen⟩
        show lookupA (eraseA r.nodeStore _) f = some n
        rw [lookupA_eraseA_ne _ _ _ hfv]
        exact hn
      · intro f hf
        have hfv : f ≠ r.historyList.getLastD 0 := fun hh => hvcache (hh ▸ hf)
        obtain ⟨n, hn, he, hlen⟩ := hinv.cacheMem f hf
        refine ⟨n, ?_, he, hlen⟩
        show lookupA (eraseA r.nodeStore _) f = some n
        rw [lookupA_eraseA_ne _ _ _ hfv]
        exact hn
    · rw [if_neg hne] at h
      have hempty : r.historyList = [] := not_not.mp hne
      cases hscan : scanCache r.nodeStore r.cacheList none with
      | none => rw [hscan] at h; exact absurd h (by simp)
      | some p =>
        rw [hscan] at h
        obtain ⟨pf, pts⟩ := p
        dsimp only at h
        obtain ⟨rfl, rfl⟩ := Prod.mk.inj (Option.some.inj h)
        have hvmem : pf ∈ r.cacheList := by
          rcases scanCache_mem _ _ _ _ hscan with hm | hcontra
          · exact hm
          · exact absurd hcontra (by simp)
        refine ⟨Or.inr hvmem, rfl, rfl, ?_, ?_, ?_⟩
        · intro f hf
          rw [hempty] at hf
          simp at hf
        · intro f hf
          exact List.mem_of_mem_erase hf
        refine ⟨?_, ?_, ?_, hinv.cacheNodup.erase pf, ?_, ?_⟩
        · intro f hf
          rw [hempty] at hf
          simp at hf
        · intro f hf
          exact hinv.cacheLt f (List.mem_of_mem_erase hf)
        · rw [hempty]
          exact List.nodup_nil
        · intro f hf
          rw [hempty] at hf
          simp at hf
        · intro f hf
          have hfv : f ≠ pf := (hinv.cacheNodup.mem_erase_iff.mp hf).1
          obtain ⟨n, hn, he, hlen⟩ := hinv.cacheMem f (List.mem_of_mem_erase hf)
          refine ⟨n, ?_, he, hlen⟩
          show lookupA (eraseA r.nodeStore pf) f = some n
          rw [lookupA_eraseA_ne _ _ _ hfv]
          exact hn

/-- Remove: on success the frame is gone from both candidate lists, the
lists shrink, and the invariant is preserved. -/
theorem remove_spec (r : Replacer) (g : Nat) (r2 : Replacer)
    (hinv : RInv r) (h : Remove r g = some r2) :
    r2.replacerSize = r.replacerSize ∧ r2.k = r.k ∧
    g ∉ r2.historyList ∧ g ∉ r2.cacheList ∧
    (∀ f, f ∈ r2.historyList → f ∈ r.historyList) ∧
    (∀ f, f ∈ r2.cacheList → f ∈ r.cacheList) ∧
    RInv r2 := by
  unfold Remove at h
  by_cases hg : g < r.replacerSize
  · rw [if_pos hg] at h
    cases hl : lookupA r.nodeStore g with
    | none =>
      rw [hl] at h
      obtain rfl : _ = r2 := Option.some.inj h
      refine ⟨rfl, rfl, ?_, ?_, fun f hf => hf, fun f hf => hf, hinv⟩
      · intro hmem
        obtain ⟨n, hn, -, -⟩ := hinv.histMem g hmem
        rw [hl] at hn
        exact absurd hn (by simp)
      · intro hmem
        obtain ⟨n, hn, -, -⟩ := hinv.cacheMem g hmem
        rw [hl] at hn
        exact absurd hn (by simp)
    | some node =>
      rw [hl] at h
      dsimp only at h
      by_cases he : node.isEvictable = false
      · rw [if_pos he] at h
        exact absurd h (by simp)
      · rw [if_neg he] at h
        by_cases hlen : node.history.length < r.k
        · rw [if_pos hlen] at h
          obtain rfl : _ = r2 := Option.some.inj h
          have hgc : g ∉ r.cacheList := by
            intro hmem
            obtain ⟨n, hn, -, hl2⟩ := hinv.cacheMem g hmem
            rw [hl] at hn
            obtain rfl : node = n := Option.some.inj hn
            omega
          refine ⟨rfl, rfl, hinv.histNodup.not_mem_erase, hgc, ?_, fun f hf => hf, ?_⟩
          · intro f hf
            exact List.mem_of_mem_erase hf
          refine ⟨?_, hinv.cacheLt, hinv.histNodup.erase g, hinv.cacheNodup, ?_, ?_⟩
          · intro f hf
            exact hinv.histLt f (List.mem_of_mem_erase hf)
          · intro f hf
            have hfg : f ≠ g := (hinv.histNodup.mem_erase_iff.mp hf).1
            obtain ⟨n, hn, hev, hl2⟩ := hinv.histMem f (List.mem_of_mem_erase hf)
            refine ⟨n, ?_, hev, hl2⟩
            show lookupA (eraseA r.nodeStore g) f = some n
            rw [lookupA_eraseA_ne _ _ _ hfg]
            exact hn
          · intro f hf
            have hfg : f ≠ g := fun hh => hgc (hh ▸ hf)
            obtain ⟨n, hn, hev, hl2⟩ := hinv.cacheMem f hf
            refine ⟨n, ?_, hev, hl2⟩
            show lookupA (eraseA r.nodeStore g) f = some n
            rw [lookupA_eraseA_ne _ _ _ hfg]
            exact hn
        · rw [if_neg hlen] at h
          obtain rfl : _ = r2 := Option.some.inj h
          have hgh : g ∉ r.historyList := by
            intro hmem
            obtain ⟨n, hn, -, hl2⟩ := hinv.histMem g hmem
            rw [hl] at hn
            obtain rfl : node = n := Option.some.inj hn
            omega
          refine ⟨rfl, rfl, hgh, hinv.cacheNodup.not_mem_erase, fun f hf => hf, ?_, ?_⟩
          · intro f hf
            exact List.mem_of_mem_erase hf
          refine ⟨hinv.histLt, ?_, hinv.histNodup, hinv.cacheNodup.erase g, ?_, ?_⟩
          · intro f hf
            exact hinv.cacheLt f (List.mem_of_mem_erase hf)
          · intro f hf
            have hfg : f ≠ g := fun hh => hgh (hh ▸ hf)
            obtain ⟨n, hn, hev, hl2⟩ := hinv.histMem f hf
            refine ⟨n, ?_, hev, hl2⟩
            show lookupA (eraseA r.nodeStore g) f = some n
            rw [lookupA_eraseA_ne _ _ _ hfg]
            exact hn
          · intro f hf
            have hfg : f ≠ g := (hinv.cacheNodup.mem_erase_iff.mp hf).1
            obtain ⟨n, hn, hev, hl2⟩ := hinv.cacheMem f (List.mem_of_mem_erase hf)
            refine ⟨n, ?_, hev, hl2⟩
            show lookupA (eraseA r.nodeStore g) f = some n
            rw [lookupA_eraseA_ne _ _ _ hfg]
            exact hn
  · rw [if_neg hg] at h
    exact absurd h (by simp)

end LRUK

/-! ### Buffer pool manager

Translated from BufferPoolManagerInstance in the buffer sources.  Frames
mirror the Page objects of the pages_ array (page id, pin count, dirty
flag, and the byte buffer abstracted to a single Nat).  The page table
component is used only through its Find, Insert and Remove interface (the
spec describes it as a map of unique (page_id, frame_id) pairs), so it is
embedded as an association list; the replacer is the LRU-K model above.
The disk manager is a map from page id to page contents; ReadPage of a
never-written page yields zeroed bytes.  A replacer assertion failure
propagates as none (it is unreachable from the public operations, as the
concrete runs show). -/

namespace BP

structure Frame where
  pageId : Int
  pinCount : Nat
  isDirty : Bool
  data : Nat
deriving DecidableEq, Repr

/-- A frame as initialised by the Page constructor and by the reset in
DeletePgImp: INVALID_PAGE_ID, pin count 0, clean, zeroed bytes. -/
def emptyFrame : Frame := ⟨-1, 0, false, 0⟩

structure BPM where
  poolSize : Nat
  frames : List Frame
  pageTable : List (Int × Nat)
  replacer : LRUK.Replacer
  freeList : List Nat
  nextPageId : Int
  disk : List (Int × Nat)
deriving DecidableEq, Repr

/-- Constructor: every frame starts in the free list. -/
def mkBPM (poolSize replacerK : Nat) : BPM :=
  { poolSize := poolSize,
    frames := List.replicate poolSize emptyFrame,
    pageTable := [],
    replacer := LRUK.mkReplacer poolSize replacerK,
    freeList := List.range poolSize,
    nextPageId := 0,
    disk := [] }

def getFrame (s : BPM) (f : Nat) : Frame := s.frames.getD f emptyFrame

/-- AllocatePage: return next_page_id_ and increment it. -/
def AllocatePage (s : BPM) : Int × BPM :=
  (s.nextPageId, { s with nextPageId := s.nextPageId + 1 })

/-- The frame-acquisition block shared by NewPgImp (steps 1-3) and
FetchPgImp (steps 2a-3): pop the free list if possible, otherwise evict a
replacer victim, writing its page back when dirty (and clearing the dirty
bit) and removing its page-table entry.  Returns none in the second
component when no frame is obtainable (the C++ then returns nullptr
without further changes). -/
def TryObtainFrame (s : BPM) : BPM × Option Nat :=
  match s.freeList with
  | f :: rest => ({ s with freeList := rest }, some f)
  | [] =>
    match LRUK.Evict s.replacer with
    | none => (s, none)
    | some (f, rep2) =>
      let victim := getFrame s f
      let oldPageId := victim.pageId
      let s1 := { s with replacer := rep2 }
      let s2 := if victim.isDirty then
          { s1 with disk := insertA s1.disk oldPageId victim.data,
                    frames := s1.frames.set f { victim with isDirty := false } }
        else s1
      ({ s2 with pageTable := eraseA s2.pageTable oldPageId }, some f)

/-- NewPgImp.  The successful result carries the allocated page id and the
frame id (the returned Page pointer). -/
def NewPg (s : BPM) : Option (BPM × Option (Int × Nat)) :=
  match TryObtainFrame s with
  | (_, none) => some (s, none)
  | (s1, some f) =>
    let (pid, s2) := AllocatePage s1
    let s3 := { s2 with pageTable := insertA s2.pageTable pid f }
    (LRUK.RecordAccess s3.replacer f).bind fun repA =>
    (LRUK.SetEvictable repA f false).bind fun repB =>
    some ({ s3 with replacer := repB,
                    frames := s3.frames.set f ⟨pid, 1, false, 0⟩ },
          some (pid, f))

/-- FetchPgImp. -/
def FetchPg (s : BPM) (pid : Int) : Option (BPM × Option Nat) :=
  match lookupA s.pageTable pid with
  | some f =>
    let fr := getFrame s f
    let s1 := { s with frames := s.frames.set f { fr with pinCount := fr.pinCount + 1 } }
    (LRUK.RecordAccess s1.replacer f).bind fun repA =>
    (LRUK.SetEvictable repA f false).bind fun repB =>
    some ({ s1 with replacer := repB }, some f)
  | none =>
    match TryObtainFrame s with
    | (_, none) => some (s, none)
    | (s1, some f) =>
      let dataFromDisk := (lookupA s1.disk pid).getD 0
      let s2 := { s1 with pageTable := insertA s1.pageTable pid f }
      (LRUK.RecordAccess s2.replacer f).bind fun repA =>
      (LRUK.SetEvictable repA f false).bind fun repB =>
      some ({ s2 with replacer := repB,
                      frames := s2.frames.set f ⟨pid, 1, false, dataFromDisk⟩ },
            some f)

/-- UnpinPgImp. -/
def UnpinPg (s : BPM) (pid : Int) (isDirty : Bool) : Option (Bool × BPM) :=
  match lookupA s.pageTable pid with
  | none => some (false, s)
  | some f =>
    let fr := getFrame s f
    if fr.pinCount = 0 then some (false, s)
    else
      let fr2 := { fr with pinCount := fr.pinCount - 1,
                           isDirty := if isDirty then true else fr.isDirty }
      let s1 := { s with frames := s.frames.set f fr2 }
      if fr2.pinCount = 0 then
        (LRUK.SetEvictable s1.replacer f true).map fun rep =>
          (true, { s1 with replacer := rep })
      else some (true, s1)

/-- FlushPgImp: unconditional write-through and dirty-bit clear. -/
def FlushPg (s : BPM) (pid : Int) : Bool × BPM :=
  match lookupA s.pageTable pid with
  | none => (false, s)
  | some f =>
    let fr := getFrame s f
    (true, { s with disk := insertA s.disk pid fr.data,
                    frames := s.frames.set f { fr with isDirty := false } })

/-- One iteration of the FlushAllPgsImp loop: write frame i through when it
holds a valid page id and clear its dirty bit. -/
def flushFrame (acc : BPM) (i : Nat) : BPM :=
  let fr := getFrame acc i
  if fr.pageId ≠ -1 then
    { acc with disk := insertA acc.disk fr.pageId fr.data,
               frames := acc.frames.set i { fr with isDirty := false } }
  else acc

/-- FlushAllPgsImp: flush every frame holding a valid page id. -/
def FlushAllPgs (s : BPM) : BPM :=
  (List.range s.poolSize).foldl flushFrame s

/-- DeletePgImp.  DeallocatePage is a notification to the disk manager and
has no modelled effect. -/
def DeletePg (s : BPM) (pid : Int) : Option (Bool × BPM) :=
  match lookupA s.pageTable pid with
  | none => some (true, s)
  | some f =>
    let fr := getFrame s f
    if 0 < fr.pinCount then some (false, s)
    else
      (LRUK.Remove s.replacer f).map fun rep =>
        (true, { s with pageTable := eraseA s.pageTable pid,
                        replacer := rep,
                        freeList := s.freeList ++ [f],
                        frames := s.frames.set f emptyFrame })

/-- The public operations.  touch p d models a client writing bytes
through the pinned Page pointer returned by NewPage or FetchPage; it is
not a buffer-pool function but is needed to express that eviction writes
back the bytes the client stored. -/
inductive BPOp where
  | newPage : BPOp
  | fetch : Int → BPOp
  | unpin : Int → Bool → BPOp
  | flush : Int → BPOp
  | flushAll : BPOp
  | deletePg : Int → BPOp
  | touch : Int → Nat → BPOp
deriving DecidableEq, Repr

/-- A client storing bytes through a pinned Page pointer: the frame found
through the page table gets new data, everything else is untouched.  Not a
buffer-pool member function, but needed to express that eviction writes
back the bytes the client stored. -/
def TouchPg (s : BPM) (pid : Int) (d : Nat) : BPM :=
  match lookupA s.pageTable pid with
  | some f =>
    let fr := getFrame s f
    { s with frames := s.frames.set f { fr with data := d } }
  | none => s

def bpStep (s : BPM) : BPOp → Option BPM
  | .newPage => (NewPg s).map Prod.fst
  | .fetch p => (FetchPg s p).map Prod.fst
  | .unpin p d => (UnpinPg s p d).map Prod.snd
  | .flush p => some (FlushPg s p).2
  | .flushAll => some (FlushAllPgs s)
  | .deletePg p => (DeletePg s p).map Prod.snd
  | .touch p d => some (TouchPg s p d)

def bpRun (s : BPM) : List BPOp → Option BPM
  | [] => some s
  | op :: rest => (bpStep s op).bind fun s2 => bpRun s2 rest

end BP

/-! ### The buffer-pool state invariant

BPInv is maintained by every public operation (with fetches restricted to
already-allocated page ids) and yields the page-table/frame bijection of
claim C6 as well as the dirty write-back discipline of claim C7. -/

namespace BP

theorem getD_replicate (n i : Nat) (a : Frame) :
    (List.replicate n a).getD i a = a := by
  induction n generalizing i with
  | zero => simp [List.getD]
  | succ m ih =>
    cases i with
    | zero => simp [List.replicate]
    | succ j =>
      rw [List.replicate_succ, List.getD_cons_succ]
      exact ih j

structure BPInv (s : BPM) : Prop where
  framesLen : s.frames.length = s.poolSize
  repSize : s.replacer.replacerSize = s.poolSize
  rinv : LRUK.RInv s.replacer
  ptNodup : (keysA s.pageTable).Nodup
  ptFrameLt : ∀ p f, lookupA s.pageTable p = some f → f < s.poolSize
  ptMapsTo : ∀ p f, lookupA s.pageTable p = some f → (getFrame s f).pageId = p
  frameMapped : ∀ f, f < s.poolSize → f ∉ s.freeList →
      lookupA s.pageTable ((getFrame s f).pageId) = some f
  ptLtNext : ∀ p f, lookupA s.pageTable p = some f → p < s.nextPageId
  freeLt : ∀ f, f ∈ s.freeList → f < s.poolSize
  freeEmpty : ∀ f, f ∈ s.freeList → getFrame s f = emptyFrame
  freeNodup : s.freeList.Nodup
  freeUnmapped : ∀ f, f ∈ s.freeList → ∀ p, lookupA s.pageTable p ≠ some f
  freeRep : ∀ f, f ∈ s.freeList →
      f ∉ s.replacer.historyList ∧ f ∉ s.replacer.cacheList

theorem bpinv_mk (n k : Nat) : BPInv (mkBPM n k) := by
  refine ⟨?_, rfl, LRUK.rinv_mkReplacer n k, ?_, ?_, ?_, ?_, ?_, ?_, ?_, ?_, ?_, ?_⟩
  · simp [mkBPM]
  · simp [mkBPM, keysA]
  · intro p f hf
    simp [mkBPM, lookupA] at hf
  · intro p f hf
    simp [mkBPM, lookupA] at hf
  · intro f hlt hnot
    exact absurd (List.mem_range.mpr hlt) hnot
  · intro p f hf
    simp [mkBPM, lookupA] at hf
  · intro f hf
    exact List.mem_range.mp hf
  · intro f hf
    exact getD_replicate n f emptyFrame
  · show (List.range n).Nodup
    exact List.nodup_range n
  · intro f hf p hp
    simp [mkBPM, lookupA] at hp
  · intro f hf
    exact ⟨by simp [mkBPM, LRUK.mkReplacer], by simp [mkBPM, LRUK.mkReplacer]⟩

/-- What the frame-acquisition block guarantees when it yields a frame:
the frame is in range, unmapped, off the free list; the page table only
shrinks; the replacer keeps its invariant with shrunken lists; and when
the chosen frame held dirty bytes they have been written to disk under its
old page id, whose page-table entry is gone. -/
theorem tryObtain_spec (s : BPM) (s1 : BPM) (f : Nat)
    (hinv : BPInv s) (h : TryObtainFrame s = (s1, some f)) :
    f < s.poolSize ∧
    s1.poolSize = s.poolSize ∧
    s1.nextPageId = s.nextPageId ∧
    s1.frames.length = s.frames.length ∧
    (∀ g, g ≠ f → getFrame s1 g = getFrame s g) ∧
    (∀ p g, lookupA s1.pageTable p = some g → lookupA s.pageTable p = some g ∧ g ≠ f) ∧
    (keysA s1.pageTable).Nodup ∧
    (∀ g, g ∈ s1.freeList → g ∈ s.freeList) ∧
    f ∉ s1.freeList ∧
    s1.freeList.Nodup ∧
    s1.replacer.replacerSize = s.poolSize ∧
    LRUK.RInv s1.replacer ∧
    (∀ g, g ∈ s1.replacer.historyList → g ∈ s.replacer.historyList) ∧
    (∀ g, g ∈ s1.replacer.cacheList → g ∈ s.replacer.cacheList) ∧
    (∀ g, g < s.poolSize → g ∉ s1.freeList → g ≠ f →
      lookupA s1.pageTable ((getFrame s1 g).pageId) = some g) ∧
    ((getFrame s f).isDirty = true →
      lookupA s1.disk ((getFrame s f).pageId) = some ((getFrame s f).data)) ∧
    ((getFrame s f).isDirty = true →
      lookupA s1.pageTable ((getFrame s f).pageId) = none) := by
  unfold TryObtainFrame at h
  cases hfl : s.freeList with
  | cons f0 rest =>
    rw [hfl] at h
    dsimp only at h
    obtain ⟨rfl, hf0⟩ := Prod.mk.inj h
    obtain rfl : f = f0 := (Option.some.inj hf0).symm
    have hmem : f ∈ s.freeList := by rw [hfl]; exact List.mem_cons_self _ _
    have hnodup := hinv.freeNodup
    rw [hfl] at hnodup
    refine ⟨hinv.freeLt f hmem, rfl, rfl, rfl, fun g _ => rfl, ?_, hinv.ptNodup,
      ?_, ?_, ?_, hinv.repSize, hinv.rinv, fun g hg => hg, fun g hg => hg, ?_, ?_, ?_⟩
    · intro p g hg
      refine ⟨hg, ?_⟩
      intro hgf
      exact hinv.freeUnmapped f hmem p (hgf ▸ hg)
    · intro g hg
      exact List.mem_cons_of_mem f hg
    · exact (List.nodup_cons.mp hnodup).1
    · exact (List.nodup_cons.mp hnodup).2
    · intro g hlt hnot hne
      refine hinv.frameMapped g hlt ?_
      rw [hfl]
      intro hgmem
      rcases List.mem_cons.mp hgmem with rfl | hg2
      · exact hne rfl
      · exact hnot hg2
    · intro hd
      rw [hinv.freeEmpty f hmem] at hd
      exact absurd hd (by simp [emptyFrame])
    · intro hd
      rw [hinv.freeEmpty f hmem] at hd
      exact absurd hd (by simp [emptyFrame])
  | nil =>
    rw [hfl] at h
    cases hev : LRUK.Evict s.replacer with
    | none =>
      rw [hev] at h
      obtain ⟨-, hbad⟩ := Prod.mk.inj h
      exact absurd hbad (by simp)
    | some vp =>
      obtain ⟨v, rep2⟩ := vp
      rw [hev] at h
      dsimp only at h
      obtain ⟨hs1, hvf⟩ := Prod.mk.inj h
      obtain rfl : v = f := Option.some.inj hvf
      obtain ⟨hvmem, hsz, -, hhist, hcache, hrinv2⟩ :=
        LRUK.evict_spec s.replacer v rep2 hinv.rinv hev
      have hvlt : v < s.poolSize := by
        rcases hvmem with hm | hm
        · exact hinv.repSize ▸ hinv.rinv.histLt v hm
        · exact hinv.repSize ▸ hinv.rinv.cacheLt v hm
      have hvnotfree : v ∉ s.freeList := by rw [hfl]; simp
      -- the intermediate state before the page-table erase
      subst hs1
      by_cases hd : (getFrame s v).isDirty = true
      · rw [if_pos hd]
        dsimp only
        constructor
        · exact hvlt
        refine ⟨rfl, rfl, by simp [List.length_set], ?_, ?_, ?_, ?_, ?_, ?_, ?_,
          hrinv2, hhist, hcache, ?_, ?_, ?_⟩
        · intro g hg
          show (s.frames.set v _).getD g emptyFrame = getFrame s g
          exact getD_set_ne _ _ _ _ _ (fun hh => hg hh.symm)
        · intro p g hg
          have hlk : lookupA s.pageTable p = some g := by
            by_cases hp : p = (getFrame s v).pageId
            · subst hp
              rw [lookupA_eraseA_self _ _ hinv.ptNodup] at hg
              exact absurd hg (by simp)
            · rw [lookupA_eraseA_ne _ _ _ hp] at hg
              exact hg
          refine ⟨hlk, ?_⟩
          intro hgv
          subst hgv
          have := hinv.ptMapsTo p g hlk
          have hp : p = (getFrame s g).pageId := this.symm
          subst hp
          rw [lookupA_eraseA_self _ _ hinv.ptNodup] at hg
          exact absurd hg (by simp)
        · exact keysA_eraseA_nodup _ _ hinv.ptNodup
        · intro g hg
          simp at hg
        · simp
        · simp
        · exact hsz.trans hinv.repSize
        · intro g hlt hnot hne
          have hgmap := hinv.frameMapped g hlt (by rw [hfl]; simp)
          have hpg : (getFrame s g).pageId ≠ (getFrame s v).pageId := by
            intro hh
            have hvmap := hinv.frameMapped v hvlt hvnotfree
            rw [← hh] at hvmap
            rw [hgmap] at hvmap
            exact hne (Option.some.inj hvmap)
          have hframes : ((s.frames.set v { getFrame s v with isDirty := false }).getD g
              emptyFrame) = getFrame s g :=
            getD_set_ne _ _ _ _ _ (fun hh => hne hh.symm)
          show lookupA (eraseA s.pageTable ((getFrame s v).pageId))
              (((s.frames.set v _).getD g emptyFrame).pageId) = some g
          rw [hframes, lookupA_eraseA_ne _ _ _ hpg]
          exact hgmap
        · intro _
          exact lookupA_insertA_self _ _ _
        · intro _
          exact lookupA_eraseA_self _ _ hinv.ptNodup
      · rw [if_neg hd]
        dsimp only
        constructor
        · exact hvlt
        refine ⟨rfl, rfl, rfl, fun g _ => rfl, ?_, ?_, ?_, ?_, ?_, ?_,
          hrinv2, hhist, hcache, ?_, ?_, ?_⟩
        · intro p g hg
          have hlk : lookupA s.pageTable p = some g := by
            by_cases hp : p = (getFrame s v).pageId
            · subst hp
              rw [lookupA_eraseA_self _ _ hinv.ptNodup] at hg
              exact absurd hg (by simp)
            · rw [lookupA_eraseA_ne _ _ _ hp] at hg
              exact hg
          refine ⟨hlk, ?_⟩
          intro hgv
          subst hgv
          have := hinv.ptMapsTo p g hlk
          have hp : p = (getFrame s g).pageId := this.symm
          subst hp
          rw [lookupA_eraseA_self _ _ hinv.ptNodup] at hg
          exact absurd hg (by simp)
        · exact keysA_eraseA_nodup _ _ hinv.ptNodup
        · intro g hg
          simp at hg
        · simp
        · simp
        · exact hsz.trans hinv.repSize
        · intro g hlt hnot hne
          have hgmap := hinv.frameMapped g hlt (by rw [hfl]; simp)
          have hpg : (getFrame s g).pageId ≠ (getFrame s v).pageId := by
            intro hh
            have hvmap := hinv.frameMapped v hvlt hvnotfree
            rw [← hh] at hvmap
            rw [hgmap] at hvmap
            exact hne (Option.some.inj hvmap)
          show lookupA (eraseA s.pageTable ((getFrame s v).pageId))
              ((getFrame s g).pageId) = some g
          rw [lookupA_eraseA_ne _ _ _ hpg]
          exact hgmap
        · intro hcontra
          exact absurd hcontra hd
        · intro hcontra
          exact absurd hcontra hd

theorem nodup_append_single {κ : Type} {l : List κ} {a : κ}
    (h : l.Nodup) (ha : a ∉ l) : (l ++ [a]).Nodup := by
  rw [List.nodup_append]
  refine ⟨h, List.nodup_singleton a, ?_⟩
  intro x hx hxa
  rw [List.mem_singleton.mp hxa] at hx
  exact ha hx

/-- NewPage preserves the buffer-pool invariant. -/
theorem newPg_pres (s s2 : BPM) (res : Option (Int × Nat))
    (hinv : BPInv s) (h : NewPg s = some (s2, res)) : BPInv s2 := by
  unfold NewPg at h
  cases hob : TryObtainFrame s with
  | mk s1 fr =>
    rw [hob] at h
    cases fr with
    | none =>
      dsimp only at h
      obtain ⟨rfl, -⟩ := Prod.mk.inj (Option.some.inj h)
      exact hinv
    | some f =>
      dsimp only at h
      unfold AllocatePage at h
      obtain ⟨hflt, hpool, hnext, hflen, hframes, hpt, hptnd, hfree, hfnot, hfnd,
        hrsz, hrinv, hrh, hrc, hfm, -, -⟩ := tryObtain_spec s s1 f hinv hob
      cases hra : LRUK.RecordAccess s1.replacer f with
      | none => rw [hra, Option.none_bind] at h; exact absurd h (by simp)
      | some repA =>
        rw [hra] at h
        rw [Option.some_bind] at h
        cases hse : LRUK.SetEvictable repA f false with
        | none => rw [hse, Option.none_bind] at h; exact absurd h (by simp)
        | some repB =>
          rw [hse, Option.some_bind] at h
          obtain ⟨hs2, -⟩ := Prod.mk.inj (Option.some.inj h)
          obtain rfl := hs2
          obtain ⟨hraSz, -, hraH, hraC, hraInv⟩ :=
            LRUK.recordAccess_spec s1.replacer f repA hrinv hra
          obtain ⟨hseSz, -, hseH, hseC, hseInv⟩ :=
            LRUK.setEvictable_spec repA f false repB hraInv hse
          have hfr : f < s.frames.length := hinv.framesLen ▸ hflt
          have hf1 : f < s1.frames.length := hflen ▸ hfr
          have hpidfresh : lookupA s1.pageTable s1.nextPageId = none := by
            cases hl : lookupA s1.pageTable s1.nextPageId with
            | none => rfl
            | some g =>
              obtain ⟨hl2, -⟩ := hpt _ _ hl
              have := hinv.ptLtNext _ _ hl2
              rw [hnext] at this
              exact absurd this (lt_irrefl _)
          have hlk : ∀ p g, lookupA (insertA s1.pageTable s1.nextPageId f) p = some g →
              (p = s1.nextPageId ∧ g = f) ∨
              (p ≠ s1.nextPageId ∧ lookupA s1.pageTable p = some g) := by
            intro p g hg
            by_cases hp : p = s1.nextPageId
            · subst hp
              rw [lookupA_insertA_self] at hg
              exact Or.inl ⟨rfl, (Option.some.inj hg).symm⟩
            · rw [lookupA_insertA_ne _ _ _ _ hp] at hg
              exact Or.inr ⟨hp, hg⟩
          have hlhist : ∀ g, g ∈ repB.historyList →
              g ∈ s.replacer.historyList ∨ g = f := by
            intro g hg
            rcases hseH g hg with hg2 | rfl
            · rcases hraH g hg2 with hg3
              exact Or.inl (hrh g hg3)
            · exact Or.inr rfl
          have hlcache : ∀ g, g ∈ repB.cacheList →
              g ∈ s.replacer.cacheList ∨ g = f := by
            intro g hg
            rcases hseC g hg with hg2 | rfl
            · rcases hraC g hg2 with hg3 | rfl
              · exact Or.inl (hrc g hg3)
              · exact Or.inr rfl
            · exact Or.inr rfl
          refine ⟨?_, ?_, hseInv, ?_, ?_, ?_, ?_, ?_, ?_, ?_, ?_, ?_, ?_⟩
          · show (s1.frames.set f _).length = s1.poolSize
            rw [List.length_set, hflen, hinv.framesLen, hpool]
          · show repB.replacerSize = s1.poolSize
            rw [hseSz, hraSz, hrsz, hpool]
          · show (keysA (insertA s1.pageTable s1.nextPageId f)).Nodup
            rw [keysA_insertA_of_none _ _ _ hpidfresh]
            exact nodup_append_single hptnd
              (lookupA_none_not_mem_keys _ _ hpidfresh)
          · intro p g hg
            show g < s1.poolSize
            rw [hpool]
            rcases hlk p g hg with ⟨-, rfl⟩ | ⟨-, hg2⟩
            · exact hflt
            · exact hinv.ptFrameLt p g (hpt p g hg2).1
          · intro p g hg
            rcases hlk p g hg with ⟨rfl, rfl⟩ | ⟨hp, hg2⟩
            · show ((s1.frames.set g ⟨s1.nextPageId, 1, false, 0⟩).getD g emptyFrame).pageId
                = s1.nextPageId
              rw [getD_set_self _ _ _ _ hf1]
            · have hgf : g ≠ f := (hpt p g hg2).2
              show ((s1.frames.set f _).getD g emptyFrame).pageId = p
              rw [getD_set_ne _ _ _ _ _ (fun hh => hgf hh.symm)]
              have : getFrame s1 g = getFrame s g := hframes g hgf
              show (getFrame s1 g).pageId = p
              rw [this]
              exact hinv.ptMapsTo p g (hpt p g hg2).1
          · intro g hglt hgnot
            by_cases hgf : g = f
            · subst hgf
              show lookupA (insertA s1.pageTable s1.nextPageId g)
                ((( s1.frames.set g ⟨s1.nextPageId, 1, false, 0⟩).getD g emptyFrame).pageId)
                = some g
              rw [getD_set_self _ _ _ _ hf1]
              exact lookupA_insertA_self _ _ _
            · show lookupA (insertA s1.pageTable s1.nextPageId f)
                (((s1.frames.set f _).getD g emptyFrame).pageId) = some g
              rw [getD_set_ne _ _ _ _ _ (fun hh => hgf hh.symm)]
              have hfr2 : getFrame s1 g = getFrame s g := hframes g hgf
              have hglt2 : g < s.poolSize := by
                have : s1.poolSize = s.poolSize := hpool
                exact this ▸ hglt
              have hmap := hfm g hglt2 hgnot hgf
              have hne : (getFrame s1 g).pageId ≠ s1.nextPageId := by
                intro hh
                rw [hh] at hmap
                rw [hpidfresh] at hmap
                exact Option.noConfusion hmap
              show lookupA (insertA s1.pageTable s1.nextPageId f)
                ((getFrame s1 g).pageId) = some g
              rw [lookupA_insertA_ne _ _ _ _ hne]
              exact hmap
          · intro p g hg
            show p < s1.nextPageId + 1
            rcases hlk p g hg with ⟨rfl, -⟩ | ⟨-, hg2⟩
            · omega
            · have := hinv.ptLtNext p g (hpt p g hg2).1
              rw [hnext]
              omega
          · intro g hg
            show g < s1.poolSize
            rw [hpool]
            exact hinv.freeLt g (hfree g hg)
          · intro g hg
            have hgf : g ≠ f := fun hh => hfnot (hh ▸ hg)
            show (s1.frames.set f _).getD g emptyFrame = emptyFrame
            rw [getD_set_ne _ _ _ _ _ (fun hh => hgf hh.symm)]
            have : getFrame s1 g = getFrame s g := hframes g hgf
            show getFrame s1 g = emptyFrame
            rw [this]
            exact hinv.freeEmpty g (hfree g hg)
          · exact hfnd
          · intro g hg p hp
            rcases hlk p g hp with ⟨-, rfl⟩ | ⟨-, hg2⟩
            · exact hfnot hg
            · exact hinv.freeUnmapped g (hfree g hg) p (hpt p g hg2).1
          · intro g hg
            have hgf : g ≠ f := fun hh => hfnot (hh ▸ hg)
            have hgs := hfree g hg
            constructor
            · intro hmem
              rcases hlhist g hmem with hm | rfl
              · exact (hinv.freeRep g hgs).1 hm
              · exact hgf rfl
            · intro hmem
              rcases hlcache g hmem with hm | rfl
              · exact (hinv.freeRep g hgs).2 hm
              · exact hgf rfl

/-- FetchPage preserves the buffer-pool invariant, provided the requested
page id has already been handed out by AllocatePage. -/
theorem fetchPg_pres (s s2 : BPM) (pid : Int) (res : Option Nat)
    (hinv : BPInv s) (hok : pid < s.nextPageId)
    (h : FetchPg s pid = some (s2, res)) : BPInv s2 := by
  unfold FetchPg at h
  cases hf : lookupA s.pageTable pid with
  | some f =>
    rw [hf] at h
    dsimp only at h
    have hflt : f < s.poolSize := hinv.ptFrameLt pid f hf
    have hfr : f < s.frames.length := hinv.framesLen ▸ hflt
    have hfnotfree : f ∉ s.freeList := fun hmem => hinv.freeUnmapped f hmem pid hf
    cases hra : LRUK.RecordAccess s.replacer f with
    | none => rw [hra, Option.none_bind] at h; exact absurd h (by simp)
    | some repA =>
      rw [hra, Option.some_bind] at h
      cases hse : LRUK.SetEvictable repA f false with
      | none => rw [hse, Option.none_bind] at h; exact absurd h (by simp)
      | some repB =>
        rw [hse, Option.some_bind] at h
        obtain ⟨hs2, -⟩ := Prod.mk.inj (Option.some.inj h)
        obtain rfl := hs2
        obtain ⟨hraSz, -, hraH, hraC, hraInv⟩ :=
          LRUK.recordAccess_spec s.replacer f repA hinv.rinv hra
        obtain ⟨hseSz, -, hseH, hseC, hseInv⟩ :=
          LRUK.setEvictable_spec repA f false repB hraInv hse
        have hlhist : ∀ g, g ∈ repB.historyList →
            g ∈ s.replacer.historyList ∨ g = f := by
          intro g hg
          rcases hseH g hg with hg2 | rfl
          · exact Or.inl (hraH g hg2)
          · exact Or.inr rfl
        have hlcache : ∀ g, g ∈ repB.cacheList →
            g ∈ s.replacer.cacheList ∨ g = f := by
          intro g hg
          rcases hseC g hg with hg2 | rfl
          · exact hraC g hg2
          · exact Or.inr rfl
        refine ⟨?_, ?_, hseInv, hinv.ptNodup, hinv.ptFrameLt, ?_, ?_,
          hinv.ptLtNext, hinv.freeLt, ?_, hinv.freeNodup, hinv.freeUnmapped, ?_⟩
        · show (s.frames.set f _).length = s.poolSize
          rw [List.length_set, hinv.framesLen]
        · show repB.replacerSize = s.poolSize
          rw [hseSz, hraSz, hinv.repSize]
        · intro p g hg
          by_cases hgf : g = f
          · subst hgf
            have hp : p = pid := by
              have h1 := hinv.ptMapsTo p g hg
              have h2 := hinv.ptMapsTo pid g hf
              rw [← h1, ← h2]
            subst hp
            show ((s.frames.set g _).getD g emptyFrame).pageId = p
            rw [getD_set_self _ _ _ _ hfr]
            exact hinv.ptMapsTo p g hf
          · show ((s.frames.set f _).getD g emptyFrame).pageId = p
            rw [getD_set_ne _ _ _ _ _ (fun hh => hgf hh.symm)]
            exact hinv.ptMapsTo p g hg
        · intro g hglt hgnot
          by_cases hgf : g = f
          · subst hgf
            show lookupA s.pageTable
              (((s.frames.set g _).getD g emptyFrame).pageId) = some g
            rw [getD_set_self _ _ _ _ hfr]
            show lookupA s.pageTable ((getFrame s g).pageId) = some g
            rw [hinv.ptMapsTo pid g hf]
            exact hf
          · show lookupA s.pageTable
              (((s.frames.set f _).getD g emptyFrame).pageId) = some g
            rw [getD_set_ne _ _ _ _ _ (fun hh => hgf hh.symm)]
            exact hinv.frameMapped g hglt hgnot
        · intro g hg
          have hgf : g ≠ f := fun hh => hfnotfree (hh ▸ hg)
          show (s.frames.set f _).getD g emptyFrame = emptyFrame
          rw [getD_set_ne _ _ _ _ _ (fun hh => hgf hh.symm)]
          exact hinv.freeEmpty g hg
        · intro g hg
          have hgf : g ≠ f := fun hh => hfnotfree (hh ▸ hg)
          constructor
          · intro hmem
            rcases hlhist g hmem with hm | rfl
            · exact (hinv.freeRep g hg).1 hm
            · exact hgf rfl
          · intro hmem
            rcases hlcache g hmem with hm | rfl
            · exact (hinv.freeRep g hg).2 hm
            · exact hgf rfl
  | none =>
    rw [hf] at h
    cases hob : TryObtainFrame s with
    | mk s1 fr =>
      rw [hob] at h
      cases fr with
      | none =>
        dsimp only at h
        obtain ⟨rfl, -⟩ := Prod.mk.inj (Option.some.inj h)
        exact hinv
      | some f =>
        dsimp only at h
        obtain ⟨hflt, hpool, hnext, hflen, hframes, hpt, hptnd, hfree, hfnot, hfnd,
          hrsz, hrinv, hrh, hrc, hfm, -, -⟩ := tryObtain_spec s s1 f hinv hob
        cases hra : LRUK.RecordAccess s1.replacer f with
        | none => rw [hra, Option.none_bind] at h; exact absurd h (by simp)
        | some repA =>
          rw [hra, Option.some_bind] at h
          cases hse : LRUK.SetEvictable repA f false with
          | none => rw [hse, Option.none_bind] at h; exact absurd h (by simp)
          | some repB =>
            rw [hse, Option.some_bind] at h
            obtain ⟨hs2, -⟩ := Prod.mk.inj (Option.some.inj h)
            obtain rfl := hs2
            obtain ⟨hraSz, -, hraH, hraC, hraInv⟩ :=
              LRUK.recordAccess_spec s1.replacer f repA hrinv hra
            obtain ⟨hseSz, -, hseH, hseC, hseInv⟩ :=
              LRUK.setEvictable_spec repA f false repB hraInv hse
            have hfr : f < s.frames.length := hinv.framesLen ▸ hflt
            have hf1 : f < s1.frames.length := hflen ▸ hfr
            have hpidfresh : lookupA s1.pageTable pid = none := by
              cases hl : lookupA s1.pageTable pid with
              | none => rfl
              | some g =>
                obtain ⟨hl2, -⟩ := hpt _ _ hl
                rw [hf] at hl2
                exact Option.noConfusion hl2
            have hlk : ∀ p g, lookupA (insertA s1.pageTable pid f) p = some g →
                (p = pid ∧ g = f) ∨
                (p ≠ pid ∧ lookupA s1.pageTable p = some g) := by
              intro p g hg
              by_cases hp : p = pid
              · subst hp
                rw [lookupA_insertA_self] at hg
                exact Or.inl ⟨rfl, (Option.some.inj hg).symm⟩
              · rw [lookupA_insertA_ne _ _ _ _ hp] at hg
                exact Or.inr ⟨hp, hg⟩
            have hlhist : ∀ g, g ∈ repB.historyList →
                g ∈ s.replacer.historyList ∨ g = f := by
              intro g hg
              rcases hseH g hg with hg2 | rfl
              · exact Or.inl (hrh g (hraH g hg2))
              · exact Or.inr rfl
            have hlcache : ∀ g, g ∈ repB.cacheList →
                g ∈ s.replacer.cacheList ∨ g = f := by
              intro g hg
              rcases hseC g hg with hg2 | rfl
              · rcases hraC g hg2 with hg3 | rfl
                · exact Or.inl (hrc g hg3)
                · exact Or.inr rfl
              · exact Or.inr rfl
            refine ⟨?_, ?_, hseInv, ?_, ?_, ?_, ?_, ?_, ?_, ?_, ?_, ?_, ?_⟩
            · show (s1.frames.set f _).length = s1.poolSize
              rw [List.length_set, hflen, hinv.framesLen, hpool]
            · show repB.replacerSize = s1.poolSize
              rw [hseSz, hraSz, hrsz, hpool]
            · show (keysA (insertA s1.pageTable pid f)).Nodup
              rw [keysA_insertA_of_none _ _ _ hpidfresh]
              exact nodup_append_single hptnd
                (lookupA_none_not_mem_keys _ _ hpidfresh)
            · intro p g hg
              show g < s1.poolSize
              rw [hpool]
              rcases hlk p g hg with ⟨-, rfl⟩ | ⟨-, hg2⟩
              · exact hflt
              · exact hinv.ptFrameLt p g (hpt p g hg2).1
            · intro p g hg
              rcases hlk p g hg with ⟨rfl, rfl⟩ | ⟨hp, hg2⟩
              · show ((s1.frames.set g
                    ⟨p, 1, false, (lookupA s1.disk p).getD 0⟩).getD g
                    emptyFrame).pageId = p
                rw [getD_set_self _ _ _ _ hf1]
              · have hgf : g ≠ f := (hpt p g hg2).2
                show ((s1.frames.set f _).getD g emptyFrame).pageId = p
                rw [getD_set_ne _ _ _ _ _ (fun hh => hgf hh.symm)]
                have hfr2 : getFrame s1 g = getFrame s g := hframes g hgf
                show (getFrame s1 g).pageId = p
                rw [hfr2]
                exact hinv.ptMapsTo p g (hpt p g hg2).1
            · intro g hglt hgnot
              by_cases hgf : g = f
              · subst hgf
                show lookupA (insertA s1.pageTable pid g)
                  (((s1.frames.set g
                    ⟨pid, 1, false, (lookupA s1.disk pid).getD 0⟩).getD g
                    emptyFrame).pageId) = some g
                rw [getD_set_self _ _ _ _ hf1]
                exact lookupA_insertA_self _ _ _
              · show lookupA (insertA s1.pageTable pid f)
                  (((s1.frames.set f _).getD g emptyFrame).pageId) = some g
                rw [getD_set_ne _ _ _ _ _ (fun hh => hgf hh.symm)]
                have hfr2 : getFrame s1 g = getFrame s g := hframes g hgf
                have hglt2 : g < s.poolSize := by
                  have hpp : s1.poolSize = s.poolSize := hpool
                  exact hpp ▸ hglt
                have hmap := hfm g hglt2 hgnot hgf
                have hne : (getFrame s1 g).pageId ≠ pid := by
                  intro hh
                  rw [hh] at hmap
                  rw [hpidfresh] at hmap
                  exact Option.noConfusion hmap
                show lookupA (insertA s1.pageTable pid f)
                  ((getFrame s1 g).pageId) = some g
                rw [lookupA_insertA_ne _ _ _ _ hne]
                exact hmap
            · intro p g hg
              show p < s1.nextPageId
              rcases hlk p g hg with ⟨rfl, -⟩ | ⟨-, hg2⟩
              · rw [hnext]; exact hok
              · have := hinv.ptLtNext p g (hpt p g hg2).1
                rw [hnext]
                exact this
            · intro g hg
              show g < s1.poolSize
              rw [hpool]
              exact hinv.freeLt g (hfree g hg)
            · intro g hg
              have hgf : g ≠ f := fun hh => hfnot (hh ▸ hg)
              show (s1.frames.set f _).getD g emptyFrame = emptyFrame
              rw [getD_set_ne _ _ _ _ _ (fun hh => hgf hh.symm)]
              have hfr2 : getFrame s1 g = getFrame s g := hframes g hgf
              show getFrame s1 g = emptyFrame
              rw [hfr2]
              exact hinv.freeEmpty g (hfree g hg)
            · exact hfnd
            · intro g hg p hp
              rcases hlk p g hp with ⟨-, rfl⟩ | ⟨-, hg2⟩
              · exact hfnot hg
              · exact hinv.freeUnmapped g (hfree g hg) p (hpt p g hg2).1
            · intro g hg
              have hgf : g ≠ f := fun hh => hfnot (hh ▸ hg)
              have hgs := hfree g hg
              constructor
              · intro hmem
                rcases hlhist g hmem with hm | rfl
                · exact (hinv.freeRep g hgs).1 hm
                · exact hgf rfl
              · intro hmem
                rcases hlcache g hmem with hm | rfl
                · exact (hinv.freeRep g hgs).2 hm
                · exact hgf rfl

/-- Overwriting a non-free frame with a frame carrying the same page id
(and arbitrary disk contents) leaves the invariant intact: the page table,
free list and replacer are untouched. -/
theorem setFrame_pres (s : BPM) (f : Nat) (fr2 : Frame) (dsk : List (Int × Nat))
    (hinv : BPInv s) (hflt : f < s.poolSize) (hnf : f ∉ s.freeList)
    (hpg : fr2.pageId = (getFrame s f).pageId) :
    BPInv { s with frames := s.frames.set f fr2, disk := dsk } := by
  have hfr : f < s.frames.length := hinv.framesLen ▸ hflt
  refine ⟨?_, hinv.repSize, hinv.rinv, hinv.ptNodup, hinv.ptFrameLt, ?_, ?_,
    hinv.ptLtNext, hinv.freeLt, ?_, hinv.freeNodup, hinv.freeUnmapped,
    hinv.freeRep⟩
  · show (s.frames.set f fr2).length = s.poolSize
    rw [List.length_set, hinv.framesLen]
  · intro p g hg
    by_cases hgf : g = f
    · subst hgf
      show ((s.frames.set g fr2).getD g emptyFrame).pageId = p
      rw [getD_set_self _ _ _ _ hfr, hpg]
      exact hinv.ptMapsTo p g hg
    · show ((s.frames.set f fr2).getD g emptyFrame).pageId = p
      rw [getD_set_ne _ _ _ _ _ (fun hh => hgf hh.symm)]
      exact hinv.ptMapsTo p g hg
  · intro g hglt hgnot
    by_cases hgf : g = f
    · subst hgf
      show lookupA s.pageTable
        (((s.frames.set g fr2).getD g emptyFrame).pageId) = some g
      rw [getD_set_self _ _ _ _ hfr, hpg]
      exact hinv.frameMapped g hglt hgnot
    · show lookupA s.pageTable
        (((s.frames.set f fr2).getD g emptyFrame).pageId) = some g
      rw [getD_set_ne _ _ _ _ _ (fun hh => hgf hh.symm)]
      exact hinv.frameMapped g hglt hgnot
  · intro g hg
    have hgf : g ≠ f := fun hh => hnf (hh ▸ hg)
    show (s.frames.set f fr2).getD g emptyFrame = emptyFrame
    rw [getD_set_ne _ _ _ _ _ (fun hh => hgf hh.symm)]
    exact hinv.freeEmpty g hg

/-- Swapping in a replacer whose lists only contain previous members or a
single non-free frame preserves the invariant. -/
theorem setReplacer_pres (s : BPM) (rep : LRUK.Replacer) (f : Nat)
    (hinv : BPInv s) (hnf : f ∉ s.freeList)
    (hsz : rep.replacerSize = s.replacer.replacerSize)
    (hrinv : LRUK.RInv rep)
    (hH : ∀ g, g ∈ rep.historyList → g ∈ s.replacer.historyList ∨ g = f)
    (hC : ∀ g, g ∈ rep.cacheList → g ∈ s.replacer.cacheList ∨ g = f) :
    BPInv { s with replacer := rep } := by
  refine ⟨hinv.framesLen, hsz.trans hinv.repSize, hrinv, hinv.ptNodup,
    hinv.ptFrameLt, hinv.ptMapsTo, hinv.frameMapped, hinv.ptLtNext,
    hinv.freeLt, hinv.freeEmpty, hinv.freeNodup, hinv.freeUnmapped, ?_⟩
  intro g hg
  have hgf : g ≠ f := fun hh => hnf (hh ▸ hg)
  constructor
  · intro hmem
    rcases hH g hmem with hm | rfl
    · exact (hinv.freeRep g hg).1 hm
    · exact hgf rfl
  · intro hmem
    rcases hC g hmem with hm | rfl
    · exact (hinv.freeRep g hg).2 hm
    · exact hgf rfl

/-- UnpinPage preserves the buffer-pool invariant. -/
theorem unpinPg_pres (s s2 : BPM) (pid : Int) (d : Bool) (r : Bool)
    (hinv : BPInv s) (h : UnpinPg s pid d = some (r, s2)) : BPInv s2 := by
  unfold UnpinPg at h
  cases hf : lookupA s.pageTable pid with
  | none =>
    rw [hf] at h
    obtain ⟨-, rfl⟩ := Prod.mk.inj (Option.some.inj h)
    exact hinv
  | some f =>
    rw [hf] at h
    dsimp only at h
    have hflt : f < s.poolSize := hinv.ptFrameLt pid f hf
    have hnf : f ∉ s.freeList := fun hmem => hinv.freeUnmapped f hmem pid hf
    by_cases h0 : (getFrame s f).pinCount = 0
    · rw [if_pos h0] at h
      obtain ⟨-, rfl⟩ := Prod.mk.inj (Option.some.inj h)
      exact hinv
    · rw [if_neg h0] at h
      have hs1 := setFrame_pres s f
        (Frame.mk (getFrame s f).pageId ((getFrame s f).pinCount - 1)
          (if d then true else (getFrame s f).isDirty) (getFrame s f).data)
        s.disk hinv hflt hnf rfl
      by_cases hz : (getFrame s f).pinCount - 1 = 0
      · rw [if_pos hz] at h
        cases hse : LRUK.SetEvictable s.replacer f true with
        | none =>
          rw [hse] at h
          exact absurd h (by simp)
        | some rep =>
          rw [hse] at h
          obtain ⟨-, hs2⟩ := Prod.mk.inj (Option.some.inj h)
          obtain rfl := hs2
          obtain ⟨hseSz, -, hseH, hseC, hseInv⟩ :=
            LRUK.setEvictable_spec s.replacer f true rep hinv.rinv hse
          exact setReplacer_pres _ rep f hs1 hnf hseSz hseInv hseH hseC
      · rw [if_neg hz] at h
        obtain ⟨-, hs2⟩ := Prod.mk.inj (Option.some.inj h)
        obtain rfl := hs2
        exact hs1

/-- FlushPage preserves the buffer-pool invariant. -/
theorem flushPg_pres (s : BPM) (pid : Int) (hinv : BPInv s) :
    BPInv (FlushPg s pid).2 := by
  unfold FlushPg
  cases hf : lookupA s.pageTable pid with
  | none => exact hinv
  | some f =>
    dsimp only
    have hflt : f < s.poolSize := hinv.ptFrameLt pid f hf
    have hnf : f ∉ s.freeList := fun hmem => hinv.freeUnmapped f hmem pid hf
    exact setFrame_pres s f _ _ hinv hflt hnf rfl

/-- One FlushAllPgsImp iteration preserves the buffer-pool invariant. -/
theorem flushFrame_pres (s : BPM) (i : Nat) (hinv : BPInv s) :
    BPInv (flushFrame s i) := by
  unfold flushFrame
  dsimp only
  by_cases hp : (getFrame s i).pageId ≠ -1
  · rw [if_pos hp]
    have hnf : i ∉ s.freeList := by
      intro hmem
      have he := hinv.freeEmpty i hmem
      rw [he] at hp
      exact hp rfl
    by_cases hi : i < s.poolSize
    · exact setFrame_pres s i _ _ hinv hi hnf rfl
    · have hlen : s.frames.length ≤ i := by
        rw [hinv.framesLen]
        omega
      have he : getFrame s i = emptyFrame := getD_eq_default_of_le _ _ _ hlen
      rw [he] at hp
      exact absurd rfl hp
  · rw [if_neg hp]
    exact hinv

theorem flushFold_pres : ∀ (l : List Nat) (acc : BPM), BPInv acc →
    BPInv (l.foldl flushFrame acc)
  | [], _, h => h
  | i :: rest, acc, h =>
    flushFold_pres rest (flushFrame acc i) (flushFrame_pres acc i h)

/-- FlushAllPgs preserves the buffer-pool invariant. -/
theorem flushAll_pres (s : BPM) (hinv : BPInv s) : BPInv (FlushAllPgs s) :=
  flushFold_pres (List.range s.poolSize) s hinv

/-- DeletePage preserves the buffer-pool invariant. -/
theorem deletePg_pres (s s2 : BPM) (pid : Int) (r : Bool)
    (hinv : BPInv s) (h : DeletePg s pid = some (r, s2)) : BPInv s2 := by
  unfold DeletePg at h
  cases hf : lookupA s.pageTable pid with
  | none =>
    rw [hf] at h
    obtain ⟨-, rfl⟩ := Prod.mk.inj (Option.some.inj h)
    exact hinv
  | some f =>
    rw [hf] at h
    dsimp only at h
    by_cases hpin : 0 < (getFrame s f).pinCount
    · rw [if_pos hpin] at h
      obtain ⟨-, rfl⟩ := Prod.mk.inj (Option.some.inj h)
      exact hinv
    · rw [if_neg hpin] at h
      cases hrm : LRUK.Remove s.replacer f with
      | none =>
        rw [hrm] at h
        exact absurd h (by simp)
      | some rep =>
        rw [hrm] at h
        obtain ⟨-, hs2⟩ := Prod.mk.inj (Option.some.inj h)
        obtain rfl := hs2
        have hflt : f < s.poolSize := hinv.ptFrameLt pid f hf
        have hfr : f < s.frames.length := hinv.framesLen ▸ hflt
        have hnf : f ∉ s.freeList := fun hmem => hinv.freeUnmapped f hmem pid hf
        have hpe : (getFrame s f).pageId = pid := hinv.ptMapsTo pid f hf
        obtain ⟨hrSz, -, hfH, hfC, hrH, hrC, hrinv⟩ :=
          LRUK.remove_spec s.replacer f rep hinv.rinv hrm
        have hlk : ∀ p g, lookupA (eraseA s.pageTable pid) p = some g →
            p ≠ pid ∧ lookupA s.pageTable p = some g := by
          intro p g hg
          by_cases hp : p = pid
          · subst hp
            rw [lookupA_eraseA_self _ _ hinv.ptNodup] at hg
            exact absurd hg (by simp)
          · rw [lookupA_eraseA_ne _ _ _ hp] at hg
            exact ⟨hp, hg⟩
        have hgnef : ∀ p g, lookupA (eraseA s.pageTable pid) p = some g →
            g ≠ f := by
          intro p g hg hgf
          subst hgf
          obtain ⟨hp, hg2⟩ := hlk p g hg
          have := hinv.ptMapsTo p g hg2
          rw [hpe] at this
          exact hp this.symm
        refine ⟨?_, hrSz.trans hinv.repSize, hrinv, ?_, ?_, ?_, ?_, ?_, ?_,
          ?_, ?_, ?_, ?_⟩
        · show (s.frames.set f emptyFrame).length = s.poolSize
          rw [List.length_set, hinv.framesLen]
        · exact keysA_eraseA_nodup _ _ hinv.ptNodup
        · intro p g hg
          exact hinv.ptFrameLt p g (hlk p g hg).2
        · intro p g hg
          have hgf := hgnef p g hg
          show ((s.frames.set f emptyFrame).getD g emptyFrame).pageId = p
          rw [getD_set_ne _ _ _ _ _ (fun hh => hgf hh.symm)]
          exact hinv.ptMapsTo p g (hlk p g hg).2
        · intro g hglt hgnot
          have hgold : g ∉ s.freeList := fun hm =>
            hgnot (List.mem_append.mpr (Or.inl hm))
          have hgf : g ≠ f := fun hh =>
            hgnot (List.mem_append.mpr (Or.inr (hh ▸ List.mem_singleton_self f)))
          have hmap := hinv.frameMapped g hglt hgold
          have hframes : (s.frames.set f emptyFrame).getD g emptyFrame
              = getFrame s g :=
            getD_set_ne _ _ _ _ _ (fun hh => hgf hh.symm)
          have hne : (getFrame s g).pageId ≠ pid := by
            intro hh
            rw [hh, hf] at hmap
            exact hgf (Option.some.inj hmap).symm
          show lookupA (eraseA s.pageTable pid)
            (((s.frames.set f emptyFrame).getD g emptyFrame).pageId) = some g
          rw [hframes, lookupA_eraseA_ne _ _ _ hne]
          exact hmap
        · intro p g hg
          exact hinv.ptLtNext p g (hlk p g hg).2
        · intro g hg
          rcases List.mem_append.mp hg with hm | hm
          · exact hinv.freeLt g hm
          · rw [List.mem_singleton.mp hm]
            exact hflt
        · intro g hg
          rcases List.mem_append.mp hg with hm | hm
          · have hgf : g ≠ f := fun hh => hnf (hh ▸ hm)
            show (s.frames.set f emptyFrame).getD g emptyFrame = emptyFrame
            rw [getD_set_ne _ _ _ _ _ (fun hh => hgf hh.symm)]
            exact hinv.freeEmpty g hm
          · rw [List.mem_singleton.mp hm]
            show (s.frames.set f emptyFrame).getD f emptyFrame = emptyFrame
            rw [getD_set_self _ _ _ _ hfr]
        · exact nodup_append_single hinv.freeNodup hnf
        · intro g hg p hp
          have hgf := hgnef p g hp
          rcases List.mem_append.mp hg with hm | hm
          · exact hinv.freeUnmapped g hm p (hlk p g hp).2
          · exact hgf (List.mem_singleton.mp hm)
        · intro g hg
          rcases List.mem_append.mp hg with hm | hm
          · constructor
            · intro hmem
              exact (hinv.freeRep g hm).1 (hrH g hmem)
            · intro hmem
              exact (hinv.freeRep g hm).2 (hrC g hmem)
          · rw [List.mem_singleton.mp hm]
            exact ⟨hfH, hfC⟩

/-- The restriction under which the page-table bijection is maintained:
FetchPage may only name a page id that AllocatePage has already handed
out.  Every other operation is unrestricted. -/
def okOp (s : BPM) : BPOp → Bool
  | .fetch p => decide (p < s.nextPageId)
  | _ => true

/-- okOp checked at every step along a run. -/
def okRun (s : BPM) : List BPOp → Bool
  | [] => true
  | op :: rest =>
    okOp s op && (match bpStep s op with
      | some s2 => okRun s2 rest
      | none => true)

/-- TouchPg preserves the buffer-pool invariant. -/
theorem touchPg_pres (s : BPM) (pid : Int) (d : Nat) (hinv : BPInv s) :
    BPInv (TouchPg s pid d) := by
  unfold TouchPg
  cases hf : lookupA s.pageTable pid with
  | none => exact hinv
  | some f =>
    dsimp only
    have hflt : f < s.poolSize := hinv.ptFrameLt pid f hf
    have hnf : f ∉ s.freeList := fun hmem => hinv.freeUnmapped f hmem pid hf
    exact setFrame_pres s f _ s.disk hinv hflt hnf rfl

/-- Every public operation preserves the buffer-pool invariant. -/
theorem bpStep_pres (s s2 : BPM) (op : BPOp) (hinv : BPInv s)
    (hok : okOp s op = true) (h : bpStep s op = some s2) : BPInv s2 := by
  cases op with
  | newPage =>
    replace h : (NewPg s).map Prod.fst = some s2 := h
    cases hn : NewPg s with
    | none =>
      rw [hn] at h
      exact absurd h (by simp)
    | some pr =>
      obtain ⟨s3, res⟩ := pr
      rw [hn] at h
      obtain rfl : s3 = s2 := Option.some.inj h
      exact newPg_pres s s3 res hinv hn
  | fetch p =>
    replace h : (FetchPg s p).map Prod.fst = some s2 := h
    have hlt : p < s.nextPageId := of_decide_eq_true hok
    cases hn : FetchPg s p with
    | none =>
      rw [hn] at h
      exact absurd h (by simp)
    | some pr =>
      obtain ⟨s3, res⟩ := pr
      rw [hn] at h
      obtain rfl : s3 = s2 := Option.some.inj h
      exact fetchPg_pres s s3 p res hinv hlt hn
  | unpin p d =>
    replace h : (UnpinPg s p d).map Prod.snd = some s2 := h
    cases hn : UnpinPg s p d with
    | none =>
      rw [hn] at h
      exact absurd h (by simp)
    | some pr =>
      obtain ⟨b, s3⟩ := pr
      rw [hn] at h
      obtain rfl : s3 = s2 := Option.some.inj h
      exact unpinPg_pres s s3 p d b hinv hn
  | flush p =>
    replace h : some (FlushPg s p).2 = some s2 := h
    obtain rfl : (FlushPg s p).2 = s2 := Option.some.inj h
    exact flushPg_pres s p hinv
  | flushAll =>
    replace h : some (FlushAllPgs s) = some s2 := h
    obtain rfl : FlushAllPgs s = s2 := Option.some.inj h
    exact flushAll_pres s hinv
  | deletePg p =>
    replace h : (DeletePg s p).map Prod.snd = some s2 := h
    cases hn : DeletePg s p with
    | none =>
      rw [hn] at h
      exact absurd h (by simp)
    | some pr =>
      obtain ⟨b, s3⟩ := pr
      rw [hn] at h
      obtain rfl : s3 = s2 := Option.some.inj h
      exact deletePg_pres s s3 p b hinv hn
  | touch p d =>
    replace h : some (TouchPg s p d) = some s2 := h
    obtain rfl : TouchPg s p d = s2 := Option.some.inj h
    exact touchPg_pres s p d hinv

/-- Every restricted run from an invariant state preserves the invariant. -/
theorem bpRun_pres : ∀ (ops : List BPOp) (s s2 : BPM), BPInv s →
    okRun s ops = true → bpRun s ops = some s2 → BPInv s2 := by
  intro ops
  induction ops with
  | nil =>
    intro s s2 hinv _ h
    obtain rfl : s = s2 := Option.some.inj h
    exact hinv
  | cons op rest ih =>
    intro s s2 hinv hok h
    unfold bpRun at h
    unfold okRun at hok
    cases hstep : bpStep s op with
    | none =>
      rw [hstep, Option.none_bind] at h
      exact absurd h (by simp)
    | some s1 =>
      rw [hstep, Option.some_bind] at h
      rw [hstep] at hok
      dsimp only at hok
      rw [Bool.and_eq_true] at hok
      exact ih s1 s2 (bpStep_pres s s1 op hinv hok.1 hstep) hok.2 h

end BP

/-! ### Claim C5: UnpinPage semantics -/

/-- SetEvictable completes for every in-range frame id. -/
theorem setEvictable_isSome (r : LRUK.Replacer) (f : Nat) (b : Bool)
    (h : f < r.replacerSize) : (LRUK.SetEvictable r f b).isSome := by
  unfold LRUK.SetEvictable
  rw [if_pos h]
  cases lookupA r.nodeStore f with
  | none => rfl
  | some node =>
    dsimp only
    by_cases he : node.isEvictable = b
    · rw [if_pos he]
      rfl
    · rw [if_neg he]
      cases b
      · by_cases h1 : f ∈ r.historyList
        · rw [if_pos h1]
          rfl
        · rw [if_neg h1]
          by_cases h2 : f ∈ r.cacheList
          · rw [if_pos h2]
            rfl
          · rw [if_neg h2]
            rfl
      · by_cases h1 : node.history.length < r.k
        · rw [if_pos h1]
          rfl
        · rw [if_neg h1]
          rfl

/-- C5: UnpinPage returns false and leaves the state unchanged exactly when
the page is not resident or its pin count is already 0; otherwise it
returns true, decrements the pin count, ORs the dirty flag with the
argument (never clearing it), touches nothing else, and marks the frame
evictable in the replacer exactly when the new pin count is 0.  The last
conjunct shows the operation completes whenever the frame id is in range
for the replacer. -/
theorem c5_unpin_page (s : BP.BPM) (pid : Int) (d : Bool) :
    (lookupA s.pageTable pid = none → BP.UnpinPg s pid d = some (false, s)) ∧
    (∀ f, lookupA s.pageTable pid = some f → (BP.getFrame s f).pinCount = 0 →
      BP.UnpinPg s pid d = some (false, s)) ∧
    (∀ f, lookupA s.pageTable pid = some f → 0 < (BP.getFrame s f).pinCount →
      ∀ r, BP.UnpinPg s pid d = some r →
        r.1 = true ∧
        r.2.frames = s.frames.set f
          { pageId := (BP.getFrame s f).pageId,
            pinCount := (BP.getFrame s f).pinCount - 1,
            isDirty := ((BP.getFrame s f).isDirty || d),
            data := (BP.getFrame s f).data } ∧
        r.2.pageTable = s.pageTable ∧
        r.2.freeList = s.freeList ∧
        r.2.disk = s.disk ∧
        r.2.nextPageId = s.nextPageId ∧
        r.2.poolSize = s.poolSize ∧
        (0 < (BP.getFrame s f).pinCount - 1 → r.2.replacer = s.replacer) ∧
        ((BP.getFrame s f).pinCount - 1 = 0 →
          LRUK.SetEvictable s.replacer f true = some r.2.replacer)) ∧
    (∀ f, lookupA s.pageTable pid = some f → f < s.replacer.replacerSize →
      (BP.UnpinPg s pid d).isSome) := by
  have hdirty : ∀ b : Bool, (if d then true else b) = (b || d) := by
    intro b
    cases d <;> cases b <;> rfl
  refine ⟨?_, ?_, ?_, ?_⟩
  · intro h
    simp [BP.UnpinPg, h]
  · intro f hf h0
    simp [BP.UnpinPg, hf, h0]
  · intro f hf hpos r hr
    unfold BP.UnpinPg at hr
    rw [hf] at hr
    dsimp only at hr
    rw [if_neg (Nat.pos_iff_ne_zero.mp hpos)] at hr
    by_cases hz : (BP.getFrame s f).pinCount - 1 = 0
    · rw [if_pos hz] at hr
      cases hse : LRUK.SetEvictable s.replacer f true with
      | none =>
        rw [hse] at hr
        exact absurd hr (by simp)
      | some rep =>
        rw [hse] at hr
        obtain rfl : _ = r := Option.some.inj hr
        refine ⟨rfl, ?_, rfl, rfl, rfl, rfl, rfl, ?_, ?_⟩
        · dsimp only
          rw [hdirty]
        · intro hcontra
          exact absurd hz (Nat.pos_iff_ne_zero.mp hcontra)
        · intro _
          rfl
    · rw [if_neg hz] at hr
      obtain rfl : _ = r := Option.some.inj hr
      refine ⟨rfl, ?_, rfl, rfl, rfl, rfl, rfl, ?_, ?_⟩
      · dsimp only
        rw [hdirty]
      · intro _
        rfl
      · intro h0
        exact absurd h0 hz
  · intro f hf hlt
    unfold BP.UnpinPg
    rw [hf]
    dsimp only
    by_cases h0 : (BP.getFrame s f).pinCount = 0
    · rw [if_pos h0]
      rfl
    · rw [if_neg h0]
      by_cases hz : (BP.getFrame s f).pinCount - 1 = 0
      · rw [if_pos hz]
        have hsome := setEvictable_isSome s.replacer f true hlt
        cases hse : LRUK.SetEvictable s.replacer f true with
        | none => rw [hse] at hsome; exact absurd hsome (by simp)
        | some rep => rfl
      · rw [if_neg hz]
        rfl

/-- State with pool size 1 after one NewPage: page 0 resident in frame 0
with pin count 1. -/
def c5state : BP.BPM :=
  (BP.bpRun (BP.mkBPM 1 2) [.newPage]).getD (BP.mkBPM 1 2)

/-- The result of UnpinPage(0, true) on c5state. -/
def c5res : Bool × BP.BPM :=
  (BP.UnpinPg c5state 0 true).getD (false, c5state)

/-- C5 witness: UnpinPage(0, true) on c5state returns true, drops the pin
count from 1 to 0, ORs the dirty bit to true and marks frame 0 evictable
in the replacer. -/
theorem c5_witness :
    BP.UnpinPg c5state 0 true = some c5res ∧
    c5res.1 = true ∧
    c5res.2.frames = c5state.frames.set 0
      { pageId := (BP.getFrame c5state 0).pageId,
        pinCount := (BP.getFrame c5state 0).pinCount - 1,
        isDirty := ((BP.getFrame c5state 0).isDirty || true),
        data := (BP.getFrame c5state 0).data } ∧
    LRUK.SetEvictable c5state.replacer 0 true = some c5res.2.replacer := by
  have hr : BP.UnpinPg c5state 0 true = some c5res := by decide
  have h := (c5_unpin_page c5state 0 true).2.2.1 0 (by decide) (by decide) c5res hr
  exact ⟨hr, h.1, h.2.1, h.2.2.2.2.2.2.2.2 (by decide)⟩

/-! ### Claim C6: page-table / frame bijection -/

/-- The two directions of the page-table / frame bijection: every table
entry points at an in-range frame holding exactly that page id, no two
pages share a frame, and every frame holding a valid page id is found
again through the table. -/
def PTBijection (s : BP.BPM) : Prop :=
  (∀ p f, lookupA s.pageTable p = some f →
    f < s.poolSize ∧ (BP.getFrame s f).pageId = p) ∧
  (∀ p q f, lookupA s.pageTable p = some f →
    lookupA s.pageTable q = some f → p = q) ∧
  (∀ f, f < s.poolSize → (BP.getFrame s f).pageId ≠ -1 →
    lookupA s.pageTable ((BP.getFrame s f).pageId) = some f)

/-- The operation sequence breaking the unrestricted bijection claim:
FetchPage(0) on a never-allocated page id, then NewPage, which allocates
page id 0 again. -/
def c6ops : List BP.BPOp := [.fetch 0, .newPage]

/-- The state reached by c6ops from a two-frame pool. -/
def c6bad : BP.BPM := (BP.bpRun (BP.mkBPM 2 2) c6ops).getD (BP.mkBPM 2 2)

/-- C6 counterexample: after FetchPage(0); NewPage() from the initial
two-frame state, frames 0 and 1 both claim page 0, the table maps page 0
to frame 1 only, and the table-to-frame bijection is broken at frame 0. -/
theorem c6_counterexample :
    BP.bpRun (BP.mkBPM 2 2) c6ops = some c6bad ∧
    (BP.getFrame c6bad 0).pageId = 0 ∧
    (BP.getFrame c6bad 1).pageId = 0 ∧
    0 < c6bad.poolSize ∧
    lookupA c6bad.pageTable ((BP.getFrame c6bad 0).pageId) = some 1 ∧
    ¬ PTBijection c6bad := by
  refine ⟨by decide, by decide, by decide, by decide, by decide, ?_⟩
  intro hbij
  have h := hbij.2.2 0 (by decide) (by decide)
  have h2 : lookupA c6bad.pageTable ((BP.getFrame c6bad 0).pageId) = some 1 := by
    decide
  rw [h] at h2
  exact absurd (Option.some.inj h2) (by decide)

/-- C6 (amended): after any sequence of public buffer-pool operations from
the initial state in which every FetchPage names a page id that
AllocatePage has already handed out, the page table and the frame array
form a bijection on resident pages. -/
theorem c6_page_table_bijection (n k : Nat) (ops : List BP.BPOp) (s : BP.BPM)
    (hok : BP.okRun (BP.mkBPM n k) ops = true)
    (hrun : BP.bpRun (BP.mkBPM n k) ops = some s) :
    PTBijection s := by
  have hinv := BP.bpRun_pres ops (BP.mkBPM n k) s (BP.bpinv_mk n k) hok hrun
  refine ⟨fun p f hf => ⟨hinv.ptFrameLt p f hf, hinv.ptMapsTo p f hf⟩, ?_, ?_⟩
  · intro p q f hp hq
    rw [← hinv.ptMapsTo p f hp, ← hinv.ptMapsTo q f hq]
  · intro f hflt hne
    have hnf : f ∉ s.freeList := by
      intro hmem
      have he := hinv.freeEmpty f hmem
      rw [he] at hne
      exact hne rfl
    exact hinv.frameMapped f hflt hnf

/-- A state reached by a restricted run: one NewPage on a one-frame pool. -/
def c6wit : BP.BPM :=
  (BP.bpRun (BP.mkBPM 1 2) [.newPage]).getD (BP.mkBPM 1 2)

/-- C6 witness: the bijection holds in the state reached by one NewPage. -/
theorem c6_witness : PTBijection c6wit :=
  c6_page_table_bijection 1 2 [.newPage] c6wit (by decide) (by decide)

/-! ### Claim C7: dirty victims are written back before replacement -/

/-- C7: whenever NewPage or FetchPage evicts a replacer victim whose dirty
flag is set (the free list being empty forces the eviction path), the
victim frame's bytes end up on disk under the victim's old page id, the
old page id's entry is gone from the page table, and only then does the
frame carry the newly assigned page id with a clear dirty flag. -/
theorem c7_dirty_victim_written_back (s : BP.BPM)
    (hinv : BP.BPInv s) (hfree : s.freeList = []) :
    (∀ s2 pid f, BP.NewPg s = some (s2, some (pid, f)) →
      (BP.getFrame s f).isDirty = true →
      lookupA s2.disk ((BP.getFrame s f).pageId)
        = some ((BP.getFrame s f).data) ∧
      lookupA s2.pageTable ((BP.getFrame s f).pageId) = none ∧
      (BP.getFrame s2 f).pageId = pid ∧
      (BP.getFrame s2 f).isDirty = false) ∧
    (∀ q s2 f, lookupA s.pageTable q = none →
      BP.FetchPg s q = some (s2, some f) →
      (BP.getFrame s f).isDirty = true →
      lookupA s2.disk ((BP.getFrame s f).pageId)
        = some ((BP.getFrame s f).data) ∧
      lookupA s2.pageTable ((BP.getFrame s f).pageId) = none ∧
      (BP.getFrame s2 f).pageId = q ∧
      (BP.getFrame s2 f).isDirty = false) := by
  constructor
  · intro s2 pid f h hdirty
    unfold BP.NewPg at h
    cases hob : BP.TryObtainFrame s with
    | mk s1 fr =>
      rw [hob] at h
      cases fr with
      | none =>
        dsimp only at h
        obtain ⟨-, hbad⟩ := Prod.mk.inj (Option.some.inj h)
        exact absurd hbad (by simp)
      | some f0 =>
        dsimp only at h
        unfold BP.AllocatePage at h
        obtain ⟨hflt, -, hnext, hflen, -, -, -, -, -, -, -, -, -, -, -,
          hdisk, hgone⟩ := BP.tryObtain_spec s s1 f0 hinv hob
        cases hra : LRUK.RecordAccess s1.replacer f0 with
        | none => rw [hra, Option.none_bind] at h; exact absurd h (by simp)
        | some repA =>
          rw [hra, Option.some_bind] at h
          cases hse : LRUK.SetEvictable repA f0 false with
          | none => rw [hse, Option.none_bind] at h; exact absurd h (by simp)
          | some repB =>
            rw [hse, Option.some_bind] at h
            obtain ⟨hs2, hres⟩ := Prod.mk.inj (Option.some.inj h)
            obtain ⟨hpid, hff⟩ := Prod.mk.inj (Option.some.inj hres)
            obtain rfl : f = f0 := hff.symm
            obtain rfl := hs2
            have hnfree : f ∉ s.freeList := by
              rw [hfree]
              exact List.not_mem_nil f
            have hmap := hinv.frameMapped f hflt hnfree
            have hlt := hinv.ptLtNext _ f hmap
            have hfr1 : f < s1.frames.length :=
              hflen ▸ hinv.framesLen ▸ hflt
            refine ⟨hdisk hdirty, ?_, ?_, ?_⟩
            · show lookupA (insertA s1.pageTable s1.nextPageId f)
                ((BP.getFrame s f).pageId) = none
              rw [lookupA_insertA_ne]
              · exact hgone hdirty
              · rw [hnext]
                intro hh
                rw [hh] at hlt
                exact absurd hlt (lt_irrefl _)
            · show ((s1.frames.set f _).getD f BP.emptyFrame).pageId = pid
              rw [getD_set_self _ _ _ _ hfr1]
              exact hpid
            · show ((s1.frames.set f _).getD f BP.emptyFrame).isDirty = false
              rw [getD_set_self _ _ _ _ hfr1]
  · intro q s2 f hq h hdirty
    unfold BP.FetchPg at h
    rw [hq] at h
    cases hob : BP.TryObtainFrame s with
    | mk s1 fr =>
      rw [hob] at h
      cases fr with
      | none =>
        dsimp only at h
        obtain ⟨-, hbad⟩ := Prod.mk.inj (Option.some.inj h)
        exact absurd hbad (by simp)
      | some f0 =>
        dsimp only at h
        obtain ⟨hflt, -, -, hflen, -, -, -, -, -, -, -, -, -, -, -,
          hdisk, hgone⟩ := BP.tryObtain_spec s s1 f0 hinv hob
        cases hra : LRUK.RecordAccess s1.replacer f0 with
        | none => rw [hra, Option.none_bind] at h; exact absurd h (by simp)
        | some repA =>
          rw [hra, Option.some_bind] at h
          cases hse : LRUK.SetEvictable repA f0 false with
          | none => rw [hse, Option.none_bind] at h; exact absurd h (by simp)
          | some repB =>
            rw [hse, Option.some_bind] at h
            obtain ⟨hs2, hres⟩ := Prod.mk.inj (Option.some.inj h)
            obtain rfl : f = f0 := (Option.some.inj hres).symm
            obtain rfl := hs2
            have hnfree : f ∉ s.freeList := by
              rw [hfree]
              exact List.not_mem_nil f
            have hmap := hinv.frameMapped f hflt hnfree
            have hfr1 : f < s1.frames.length :=
              hflen ▸ hinv.framesLen ▸ hflt
            have hnq : (BP.getFrame s f).pageId ≠ q := by
              intro hh
              rw [hh, hq] at hmap
              exact Option.noConfusion hmap
            refine ⟨hdisk hdirty, ?_, ?_, ?_⟩
            · show lookupA (insertA s1.pageTable q f)
                ((BP.getFrame s f).pageId) = none
              rw [lookupA_insertA_ne _ _ _ _ hnq]
              exact hgone hdirty
            · show ((s1.frames.set f _).getD f BP.emptyFrame).pageId = q
              rw [getD_set_self _ _ _ _ hfr1]
            · show ((s1.frames.set f _).getD f BP.emptyFrame).isDirty = false
              rw [getD_set_self _ _ _ _ hfr1]

/-- The scenario state: one-frame pool, NewPage gives page 0, the client
stores byte value 77, UnpinPage(0, true) leaves frame 0 dirty and
evictable with an empty free list. -/
def c7pre : BP.BPM :=
  (BP.bpRun (BP.mkBPM 1 2) [.newPage, .touch 0 77, .unpin 0 true]).getD
    (BP.mkBPM 1 2)

/-- C7 witness: the write-back guarantee instantiated in the dirty
one-frame scenario. -/
theorem c7_witness :
    (∀ s2 pid f, BP.NewPg c7pre = some (s2, some (pid, f)) →
      (BP.getFrame c7pre f).isDirty = true →
      lookupA s2.disk ((BP.getFrame c7pre f).pageId)
        = some ((BP.getFrame c7pre f).data) ∧
      lookupA s2.pageTable ((BP.getFrame c7pre f).pageId) = none ∧
      (BP.getFrame s2 f).pageId = pid ∧
      (BP.getFrame s2 f).isDirty = false) ∧
    (∀ q s2 f, lookupA c7pre.pageTable q = none →
      BP.FetchPg c7pre q = some (s2, some f) →
      (BP.getFrame c7pre f).isDirty = true →
      lookupA s2.disk ((BP.getFrame c7pre f).pageId)
        = some ((BP.getFrame c7pre f).data) ∧
      lookupA s2.pageTable ((BP.getFrame c7pre f).pageId) = none ∧
      (BP.getFrame s2 f).pageId = q ∧
      (BP.getFrame s2 f).isDirty = false) :=
  c7_dirty_victim_written_back c7pre
    (BP.bpRun_pres [.newPage, .touch 0 77, .unpin 0 true] (BP.mkBPM 1 2) c7pre
      (BP.bpinv_mk 1 2) (by decide) (by decide))
    (by decide)

/-! ### B+tree

Translated from BPlusTree, BPlusTreeLeafPage, BPlusTreeInternalPage and
IndexIterator in the project2 sources.  Keys are Nat (the comparator is
the Nat order), record ids and page ids are Int with -1 = INVALID_PAGE_ID.
A page is a Node holding its entry array as a list of (key, value) pairs
whose length is the page size; for internal pages the slot-0 key is the
invalid key the C++ code leaves in place (a freshly allocated page is
zeroed, so PopulateNewRoot leaves key 0 there).  The page store is an
association list from page id to Node standing for the buffer pool; page
allocation hands out nextPageId like AllocatePage.  Recursion along the
tree is fueled with more fuel than any chain of pages can consume; fuel
exhaustion and failed page fetches yield none. -/

namespace BPT

structure Node where
  isLeaf : Bool
  parentId : Int
  maxSize : Nat
  nextPageId : Int
  items : List (Nat × Int)
deriving DecidableEq, Repr

def KeyAt (n : Node) (i : Nat) : Nat := (n.items.map Prod.fst).getD i 0

def ValueAt (n : Node) (i : Nat) : Int := (n.items.map Prod.snd).getD i (-1)

/-- Modelled from the spec: min_size is ceil(max_size/2) for internal
pages and ceil((max_size-1)/2) for leaves (b_plus_tree_page.cpp is not
among the sources). -/
def GetMinSize (n : Node) : Nat :=
  if n.isLeaf then n.maxSize / 2 else (n.maxSize + 1) / 2

/-- Modelled from the spec: a page is the root iff its parent pointer is
INVALID_PAGE_ID. -/
def IsRootPage (n : Node) : Bool := n.parentId = -1

/-- The KeyIndex binary-search loop of BPlusTreeLeafPage::KeyIndex.  One
unit of fuel per iteration; the interval shrinks every round, so
size + 1 units always suffice. -/
def keyIndexLoop (ks : List Nat) (key : Nat) : Nat → Nat → Nat → Nat
  | 0, left, _ => left
  | fuel+1, left, right =>
    if left < right then
      let mid := left + (right - left) / 2
      if ks.getD mid 0 < key then keyIndexLoop ks key fuel (mid + 1) right
      else keyIndexLoop ks key fuel left mid
    else left

/-- BPlusTreeLeafPage::KeyIndex: first index whose key is not below the
search key. -/
def KeyIndex (n : Node) (key : Nat) : Nat :=
  keyIndexLoop (n.items.map Prod.fst) key (n.items.length + 1) 0 n.items.length

/-- The binary-search loop of BPlusTreeInternalPage::Lookup. -/
def lookupLoop (ks : List Nat) (key : Nat) : Nat → Nat → Nat → Nat
  | 0, left, _ => left
  | fuel+1, left, right =>
    if left < right then
      let mid := left + (right - left) / 2
      if key < ks.getD mid 0 then lookupLoop ks key fuel left mid
      else lookupLoop ks key fuel (mid + 1) right
    else left

/-- BPlusTreeInternalPage::Lookup: child pointer for the key. -/
def internalLookup (n : Node) (key : Nat) : Int :=
  let left := lookupLoop (n.items.map Prod.fst) key (n.items.length + 1) 1
    n.items.length
  ValueAt n (left - 1)

/-- BPlusTreeLeafPage::Lookup. -/
def leafLookup (n : Node) (key : Nat) : Option Int :=
  let idx := KeyIndex n key
  if idx < n.items.length ∧ KeyAt n idx = key then some (ValueAt n idx)
  else none

/-- BPlusTreeLeafPage::Insert: sorted insert refusing duplicates; returns
the node and the size after the call. -/
def leafInsert (n : Node) (key : Nat) (v : Int) : Node × Nat :=
  let idx := KeyIndex n key
  if idx < n.items.length ∧ KeyAt n idx = key then (n, n.items.length)
  else
    let items2 := n.items.take idx ++ (key, v) :: n.items.drop idx
    ({ n with items := items2 }, items2.length)

/-- BPlusTreeLeafPage::RemoveAndDeleteRecord. -/
def leafRemove (n : Node) (key : Nat) : Node × Nat :=
  let idx := KeyIndex n key
  if n.items.length ≤ idx ∨ ¬ KeyAt n idx = key then (n, n.items.length)
  else
    let items2 := n.items.take idx ++ n.items.drop (idx + 1)
    ({ n with items := items2 }, items2.length)

/-- BPlusTreeInternalPage::ValueIndex: -1 when the child pointer is
absent. -/
def valueIndexAux : List (Nat × Int) → Int → Int → Int
  | [], _, _ => -1
  | (_, w) :: rest, v, i => if w = v then i else valueIndexAux rest v (i + 1)

def ValueIndex (n : Node) (v : Int) : Int := valueIndexAux n.items v 0

/-- BPlusTreeInternalPage::SetKeyAt (also used for leaves). -/
def setKeyAt (n : Node) (i : Nat) (k : Nat) : Node :=
  { n with items := n.items.set i (k, (n.items.getD i (0, -1)).2) }

structure Tree where
  rootPageId : Int
  pages : List (Int × Node)
  nextPageId : Int
  leafMaxSize : Nat
  internalMaxSize : Nat
deriving DecidableEq, Repr

def mkTree (leafMax internalMax : Nat) : Tree := ⟨-1, [], 0, leafMax, internalMax⟩

def setPage (t : Tree) (pid : Int) (n : Node) : Tree :=
  { t with pages := insertA t.pages pid n }

/-- The FindLeafPage descent (latching elided).  leftMost replaces the
per-level Lookup by ValueAt(0) exactly as in the C++. -/
def findLeafLoop (t : Tree) (key : Nat) (leftMost : Bool) : Nat → Int → Option Int
  | 0, _ => none
  | fuel+1, pid =>
    match lookupA t.pages pid with
    | none => none
    | some n =>
      if n.isLeaf then some pid
      else findLeafLoop t key leftMost fuel
        (if leftMost then ValueAt n 0 else internalLookup n key)

def FindLeafPage (t : Tree) (key : Nat) (leftMost : Bool) : Option Int :=
  if t.rootPageId = -1 then none
  else findLeafLoop t key leftMost (t.pages.length + 1) t.rootPageId

/-- BPlusTree::GetValue: the returned flag and the values appended to the
result vector. -/
def GetValue (t : Tree) (key : Nat) : Bool × List Int :=
  match FindLeafPage t key false with
  | none => (false, [])
  | some pid =>
    match lookupA t.pages pid with
    | none => (false, [])
    | some leaf =>
      match leafLookup leaf key with
      | some v => (true, [v])
      | none => (false, [])

/-- BPlusTree::StartNewTree. -/
def StartNewTree (t : Tree) (key : Nat) (v : Int) : Tree :=
  let pid := t.nextPageId
  let t1 := { t with nextPageId := t.nextPageId + 1 }
  let leaf0 : Node := ⟨true, -1, t.leafMaxSize, -1, []⟩
  let leaf1 := (leafInsert leaf0 key v).1
  { t1 with rootPageId := pid, pages := insertA t1.pages pid leaf1 }

/-- CopyNFrom parent-pointer maintenance: repoint every child in the list
to its new parent page. -/
def reparentAll : Tree → List Int → Int → Option Tree
  | t, [], _ => some t
  | t, c :: rest, pid =>
    match lookupA t.pages c with
    | none => none
    | some n => reparentAll (setPage t c { n with parentId := pid }) rest pid

/-- BPlusTree::InsertIntoParent, fueled by the height of the tree.  The
split of a full parent follows InternalPage::MoveHalfTo/CopyNFrom: the
upper half moves to the sibling and each moved child is repointed. -/
def insertIntoParent : Nat → Tree → Int → Nat → Int → Option Tree
  | 0, _, _, _, _ => none
  | fuel+1, t, oldId, key, newId =>
    match lookupA t.pages oldId with
    | none => none
    | some old =>
      if IsRootPage old then
        let rootId := t.nextPageId
        let t1 := { t with nextPageId := t.nextPageId + 1 }
        let newRoot : Node := ⟨false, -1, t.internalMaxSize, -1, [(0, oldId), (key, newId)]⟩
        let t2 := setPage t1 rootId newRoot
        let t3 := setPage t2 oldId { old with parentId := rootId }
        match lookupA t3.pages newId with
        | none => none
        | some nw =>
          let t4 := setPage t3 newId { nw with parentId := rootId }
          some { t4 with rootPageId := rootId }
      else
        let parentId := old.parentId
        match lookupA t.pages parentId with
        | none => none
        | some parent =>
          match lookupA t.pages newId with
          | none => none
          | some nw =>
            let t1 := setPage t newId { nw with parentId := parentId }
            let idx := (ValueIndex parent oldId + 1).toNat
            let pitems := parent.items.take idx ++ (key, newId) :: parent.items.drop idx
            let parent2 := { parent with items := pitems }
            let t2 := setPage t1 parentId parent2
            if t.internalMaxSize ≤ parent2.items.length then
              let sibId := t2.nextPageId
              let t3 := { t2 with nextPageId := t2.nextPageId + 1 }
              let start := parent2.items.length / 2
              let moved := parent2.items.drop start
              let sib : Node := ⟨false, parent2.parentId, t.internalMaxSize, -1, moved⟩
              let parent3 := { parent2 with items := parent2.items.take start }
              let t4 := setPage (setPage t3 parentId parent3) sibId sib
              match reparentAll t4 (moved.map Prod.snd) sibId with
              | none => none
              | some t5 => insertIntoParent fuel t5 parentId (KeyAt sib 0) sibId
            else some t2

/-- BPlusTree::InsertIntoLeaf including the leaf split
(LeafPage::MoveHalfTo: upper half moves, sibling chain rethreaded). -/
def InsertIntoLeaf (t : Tree) (key : Nat) (v : Int) : Option (Bool × Tree) :=
  match FindLeafPage t key false with
  | none => some (false, t)
  | some pid =>
    match lookupA t.pages pid with
    | none => none
    | some leaf =>
      match leafLookup leaf key with
      | some _ => some (false, t)
      | none =>
        let pr := leafInsert leaf key v
        let t1 := setPage t pid pr.1
        if t.leafMaxSize ≤ pr.2 then
          let newPid := t1.nextPageId
          let t2 := { t1 with nextPageId := t1.nextPageId + 1 }
          let start := pr.1.items.length / 2
          let moved := pr.1.items.drop start
          let newLeaf : Node := ⟨true, pr.1.parentId, t.leafMaxSize, pr.1.nextPageId, moved⟩
          let leaf3 := { pr.1 with items := pr.1.items.take start, nextPageId := newPid }
          let t3 := setPage (setPage t2 pid leaf3) newPid newLeaf
          match insertIntoParent (t3.pages.length + 1) t3 pid (KeyAt newLeaf 0) newPid with
          | none => none
          | some t4 => some (true, t4)
        else some (true, t1)

/-- BPlusTree::Insert. -/
def Insert (t : Tree) (key : Nat) (v : Int) : Option (Bool × Tree) :=
  if t.rootPageId = -1 then some (true, StartNewTree t key v)
  else InsertIntoLeaf t key v

/-- BPlusTree::AdjustRoot. -/
def adjustRoot (t : Tree) (oldRoot : Node) : Option (Tree × Bool) :=
  if oldRoot.isLeaf ∧ oldRoot.items.length = 0 then
    some ({ t with rootPageId := -1 }, true)
  else if ¬ oldRoot.isLeaf ∧ oldRoot.items.length = 1 then
    let newRootId := ValueAt oldRoot 0
    match lookupA t.pages newRootId with
    | none => none
    | some newRoot =>
      let t1 := setPage t newRootId { newRoot with parentId := -1 }
      some ({ t1 with rootPageId := newRootId }, true)
  else some (t, false)

/-- BPlusTree::Redistribute, including both leaf and internal variants
exactly as written (for an internal borrow from the left sibling the new
separator key written into the parent is node.KeyAt(0), which at that
point holds the middle key just moved down). -/
def redistribute (t : Tree) (neighborId nodeId parentId : Int) (index : Nat)
    (fromLeft : Bool) : Option Tree :=
  match lookupA t.pages neighborId, lookupA t.pages nodeId,
      lookupA t.pages parentId with
  | some neighbor, some node, some parent =>
    if node.isLeaf then
      if fromLeft then
        match neighbor.items.getLast? with
        | none => none
        | some lastItem =>
          let node2 := { node with items := lastItem :: node.items }
          let neighbor2 := { neighbor with items := neighbor.items.dropLast }
          let parent2 := setKeyAt parent index (KeyAt node2 0)
          some (setPage (setPage (setPage t nodeId node2) neighborId neighbor2)
            parentId parent2)
      else
        match neighbor.items with
        | [] => none
        | first :: rest =>
          let node2 := { node with items := node.items ++ [first] }
          let neighbor2 := { neighbor with items := rest }
          let parent2 := setKeyAt parent (index + 1) (KeyAt neighbor2 0)
          some (setPage (setPage (setPage t nodeId node2) neighborId neighbor2)
            parentId parent2)
    else
      if fromLeft then
        let middle := KeyAt parent index
        match neighbor.items.getLast? with
        | none => none
        | some lastItem =>
          let node2 := { node with items := (middle, lastItem.2) :: node.items }
          let neighbor2 := { neighbor with items := neighbor.items.dropLast }
          let t1 := setPage (setPage t nodeId node2) neighborId neighbor2
          match lookupA t1.pages lastItem.2 with
          | none => none
          | some child =>
            let t2 := setPage t1 lastItem.2 { child with parentId := nodeId }
            let parent2 := setKeyAt parent index (KeyAt node2 0)
            some (setPage t2 parentId parent2)
      else
        let middle := KeyAt parent (index + 1)
        match neighbor.items with
        | [] => none
        | first :: rest =>
          let node2 := { node with items := node.items ++ [(middle, first.2)] }
          let neighbor2 := { neighbor with items := rest }
          let t1 := setPage (setPage t nodeId node2) neighborId neighbor2
          match lookupA t1.pages first.2 with
          | none => none
          | some child =>
            let t2 := setPage t1 first.2 { child with parentId := nodeId }
            let parent2 := setKeyAt parent (index + 1) (KeyAt neighbor2 0)
            some (setPage t2 parentId parent2)
  | _, _, _ => none

/-- BPlusTree::Coalesce without its tail call into CoalesceOrRedistribute
(driven by corFuel below): merge node into neighbor (for internals the
slot-0 key is first overwritten with the parent separator and every moved
child repointed), then remove the separator slot from the parent. -/
def coalesceStep (t : Tree) (neighborId nodeId parentId : Int) (index : Nat) :
    Option Tree :=
  match lookupA t.pages neighborId, lookupA t.pages nodeId,
      lookupA t.pages parentId with
  | some neighbor, some node, some parent =>
    let middle := KeyAt parent index
    if node.isLeaf then
      let nitems := neighbor.items ++ node.items
      let neighbor2 := { neighbor with items := nitems, nextPageId := node.nextPageId }
      let node2 := { node with items := ([] : List (Nat × Int)) }
      let pitems := parent.items.take index ++ parent.items.drop (index + 1)
      let parent2 := { parent with items := pitems }
      some (setPage (setPage (setPage t neighborId neighbor2) nodeId node2)
        parentId parent2)
    else
      let items2 := match node.items with
        | [] => ([] : List (Nat × Int))
        | (_, v) :: rest => (middle, v) :: rest
      let neighbor2 := { neighbor with items := neighbor.items ++ items2 }
      let node2 := { node with items := ([] : List (Nat × Int)) }
      let t1 := setPage (setPage t neighborId neighbor2) nodeId node2
      match reparentAll t1 (items2.map Prod.snd) neighborId with
      | none => none
      | some t2 =>
        match lookupA t2.pages parentId with
        | none => none
        | some parent1 =>
          let pitems := parent1.items.take index ++ parent1.items.drop (index + 1)
          let parent2 := { parent1 with items := pitems }
          some (setPage t2 parentId parent2)
  | _, _, _ => none

/-- BPlusTree::CoalesceOrRedistribute, fueled for the recursion up the
tree: prefer the left sibling, redistribute when it is above minimum,
otherwise coalesce and recurse on the parent, deleting pages exactly where
the C++ calls DeletePage. -/
def corFuel : Nat → Tree → Int → Option (Tree × Bool)
  | 0, _, _ => none
  | fuel+1, t, nodeId =>
    match lookupA t.pages nodeId with
    | none => none
    | some node =>
      if IsRootPage node then adjustRoot t node
      else if GetMinSize node ≤ node.items.length then some (t, false)
      else
        match lookupA t.pages node.parentId with
        | none => none
        | some parent =>
          let index := ValueIndex parent nodeId
          if 0 < index then
            let leftId := ValueAt parent (index - 1).toNat
            match lookupA t.pages leftId with
            | none => none
            | some leftSib =>
              if GetMinSize leftSib < leftSib.items.length then
                match redistribute t leftId nodeId node.parentId index.toNat true with
                | none => none
                | some t2 => some (t2, false)
              else
                match coalesceStep t leftId nodeId node.parentId index.toNat with
                | none => none
                | some t2 =>
                  match corFuel fuel t2 node.parentId with
                  | none => none
                  | some (t3, psd) =>
                    let t4 := if psd then
                        { t3 with pages := eraseA t3.pages node.parentId }
                      else t3
                    some (t4, true)
          else if index < (parent.items.length : Int) - 1 then
            let rightId := ValueAt parent (index + 1).toNat
            match lookupA t.pages rightId with
            | none => none
            | some rightSib =>
              if GetMinSize rightSib < rightSib.items.length then
                match redistribute t rightId nodeId node.parentId index.toNat false with
                | none => none
                | some t2 => some (t2, false)
              else
                match coalesceStep t nodeId rightId node.parentId (index + 1).toNat with
                | none => none
                | some t2 =>
                  match corFuel fuel t2 node.parentId with
                  | none => none
                  | some (t3, psd) =>
                    let t4 := if psd then
                        { t3 with pages := eraseA t3.pages node.parentId }
                      else t3
                    some ({ t4 with pages := eraseA t4.pages rightId }, false)
          else some (t, false)

/-- BPlusTree::Remove. -/
def Remove (t : Tree) (key : Nat) : Option Tree :=
  match FindLeafPage t key false with
  | none => some t
  | some pid =>
    match lookupA t.pages pid with
    | none => none
    | some leaf =>
      let pr := leafRemove leaf key
      if pr.2 = leaf.items.length then some t
      else
        let t1 := setPage t pid pr.1
        match corFuel (t1.pages.length + 1) t1 pid with
        | none => none
        | some (t2, shouldDelete) =>
          some (if shouldDelete then { t2 with pages := eraseA t2.pages pid }
            else t2)

/-- BPlusTree::Begin(): iterator at slot 0 of the leftmost leaf; none is
the end iterator. -/
def BeginIter (t : Tree) : Option (Int × Nat) :=
  match FindLeafPage t 0 true with
  | none => none
  | some pid => some (pid, 0)

/-- BPlusTree::Begin(key): iterator at KeyIndex(key) of the leaf the
descent reaches. -/
def BeginKey (t : Tree) (key : Nat) : Option (Int × Nat) :=
  match FindLeafPage t key false with
  | none => none
  | some pid =>
    match lookupA t.pages pid with
    | none => none
    | some leaf => some (pid, KeyIndex leaf key)

/-- IndexIterator::operator++ on a (page id, index) position. -/
def iterNext (t : Tree) (pid : Int) (idx : Nat) : Option (Option (Int × Nat)) :=
  match lookupA t.pages pid with
  | none => none
  | some leaf =>
    let idx2 := idx + 1
    if leaf.items.length ≤ idx2 then
      if leaf.nextPageId = -1 then some none
      else some (some (leaf.nextPageId, 0))
    else some (some (pid, idx2))

/-- The key stored at an iterator position. -/
def iterKey (t : Tree) (pid : Int) (idx : Nat) : Option Nat :=
  match lookupA t.pages pid with
  | none => none
  | some leaf => some (KeyAt leaf idx)

/-- All keys currently stored in leaf pages. -/
def allLeafKeys (t : Tree) : List Nat :=
  (t.pages.map (fun pn => if pn.2.isLeaf then pn.2.items.map Prod.fst
    else [])).flatten

inductive TOp where
  | ins : Nat → Int → TOp
  | del : Nat → TOp
deriving DecidableEq, Repr

def runOps : Tree → List TOp → Option Tree
  | t, [] => some t
  | t, .ins k v :: rest =>
    match Insert t k v with
    | none => none
    | some pr => runOps pr.2 rest
  | t, .del k :: rest =>
    match Remove t k with
    | none => none
    | some t2 => runOps t2 rest

end BPT

/-! ### Claim C1: GetValue after inserts and removes -/

/-- Thirteen operations from the empty tree with leaf_max_size 3 and
internal_max_size 4.  Remove(60) underflows an internal node whose left
sibling is above minimum, triggering the internal redistribute-from-left
path. -/
def c1ops : List BPT.TOp :=
  [.ins 10 10, .ins 20 20, .ins 30 30, .ins 40 40, .ins 50 50, .ins 60 60,
   .ins 70 70, .ins 80 80, .ins 45 45, .ins 46 46, .del 80, .del 70, .del 60]

def c1tree : BPT.Tree := (BPT.runOps (BPT.mkTree 3 4) c1ops).getD (BPT.mkTree 3 4)

/-- C1: after c1ops the keys 45 and 46 were each inserted exactly once and
never removed and are still stored in a leaf page, yet GetValue returns
false and appends nothing for both, because the internal
redistribute-from-left in Remove(60) overwrote the parent separator with
the moved-down middle key instead of the borrowed subtree's separator,
leaving the leaf holding 45 and 46 unreachable from the root. -/
theorem c1_getvalue_misses_stored_key :
    BPT.runOps (BPT.mkTree 3 4) c1ops = some c1tree ∧
    45 ∈ BPT.allLeafKeys c1tree ∧
    46 ∈ BPT.allLeafKeys c1tree ∧
    BPT.GetValue c1tree 45 = (false, []) ∧
    BPT.GetValue c1tree 46 = (false, []) := by decide

/-! ### Claim C2: iterator positioning of Begin(key) -/

def c2ops : List BPT.TOp := [.ins 10 10, .ins 20 20, .ins 30 30, .ins 40 40]

def c2tree : BPT.Tree := (BPT.runOps (BPT.mkTree 3 4) c2ops).getD (BPT.mkTree 3 4)

/-- C2: in the four-key tree built by c2ops the first stored key not below
25 is 30, yet Begin(25) yields the iterator (leaf page 1, index 1) whose
leaf holds the single entry 20: the index equals the leaf size, so the
iterator is positioned past the last entry of that leaf and references no
stored key (dereferencing reads the zeroed slot beyond the size). -/
theorem c2_begin_key_lands_past_leaf_end :
    BPT.runOps (BPT.mkTree 3 4) c2ops = some c2tree ∧
    BPT.BeginKey c2tree 25 = some (1, 1) ∧
    (lookupA c2tree.pages 1).map (fun n => n.items.length) = some 1 ∧
    30 ∈ BPT.allLeafKeys c2tree ∧
    (∀ k, k ∈ BPT.allLeafKeys c2tree → 25 ≤ k → 30 ≤ k) ∧
    BPT.iterKey c2tree 1 1 = some 0 := by decide

/-! ### Claim C8: duplicate insert -/

def c8ops : List BPT.TOp :=
  [.ins 10 10, .ins 20 20, .ins 30 30, .ins 40 40, .ins 50 50, .ins 60 60,
   .ins 70 70, .ins 80 80, .ins 45 45, .ins 46 46, .del 80, .del 70, .del 60]

def c8tree : BPT.Tree := (BPT.runOps (BPT.mkTree 3 4) c8ops).getD (BPT.mkTree 3 4)

def c8after : Bool × BPT.Tree := (BPT.Insert c8tree 46 999).getD (false, c8tree)

/-- C8: the tree built by c8ops already stores key 46, yet Insert(46, 999)
returns true and mutates the tree, storing a second entry for 46: the
duplicate check only inspects the leaf that the corrupted routing reaches,
which is not the leaf holding 46. -/
theorem c8_duplicate_insert_not_rejected :
    46 ∈ BPT.allLeafKeys c8tree ∧
    BPT.Insert c8tree 46 999 = some c8after ∧
    c8after.1 = true ∧
    ¬ c8after.2 = c8tree ∧
    (BPT.allLeafKeys c8after.2).count 46 = 2 := by decide

end StorageCore
